import Mathlib

/-!
Verification development for the SimpleStore persistent key-value store
(`src/stand_alone_version/index.ts` together with its utility module).

The repository carries two revisions of the utility module.  The revision
actually imported by `index.ts` is the one in `src/unnamed/part_004`:
`index.ts` destructures the result of `deleteProperty` as a pair
(`const [newStore, deleted] = deleteProperty(...)`), which only type-checks
and runs against the `part_004` revision (whose `deleteProperty` returns
`[newObject, wasDeleted]` and whose `setProperty` deep-clones its input);
the boolean-returning `deleteProperty` is explicitly marked
"OLD VERSION - for reference only" in `src/unnamed/part_001`.  All dot-path
utilities below are therefore embeddings of the `part_004` revision.

Model of JavaScript values: a `JVal` is a JSON-compatible value together
with `undef` (JavaScript `undefined`), which the store's code manipulates
explicitly (`getProperty` default substitution, absent fields).  Objects are
ordered association lists, mirroring JavaScript property insertion order.
JavaScript arrays expose their canonical numeric indices as own properties;
the model reproduces that for element access.  Non-index properties of
arrays and own properties of boxed primitives are outside the model: no
store operation and no claim exercises them.

File-system model: the store file is `missing`, `corrupt` (unparseable), or
`stored d`.  `JSON.parse(JSON.stringify x)` is modelled by `normalize`,
which drops `undef`-valued object fields and turns `undef` array elements
into `null`, exactly as `JSON.stringify` does for JSON-compatible data.
-/

inductive JVal where
  | undef
  | null
  | bool (b : Bool)
  | num (n : Int)
  | str (s : String)
  | arr (elems : List JVal)
  | obj (fields : List (String × JVal))
deriving Repr

namespace JVal

mutual

/-- Structural equality test for `JVal`; the deriving handler does not cover
nested inductives, so it is spelled out together with its two list forms. -/
def jeqVal : JVal → JVal → Bool
  | undef, undef => true
  | null, null => true
  | bool a, bool b => a = b
  | num a, num b => a = b
  | str a, str b => a = b
  | arr xs, arr ys => jeqElems xs ys
  | obj fs, obj gs => jeqFields fs gs
  | _, _ => false

/-- Structural equality of element lists. -/
def jeqElems : List JVal → List JVal → Bool
  | [], [] => true
  | x :: xs, y :: ys => jeqVal x y && jeqElems xs ys
  | _, _ => false

/-- Structural equality of field lists. -/
def jeqFields : List (String × JVal) → List (String × JVal) → Bool
  | [], [] => true
  | (k, v) :: fs, (l, w) :: gs => k = l && jeqVal v w && jeqFields fs gs
  | _, _ => false

end

mutual

/-- `jeqVal` decides equality; packaged as a definition because the
`DecidableEq` instance, which the later definitions need, is built from
it. -/
def jeqVal_eq : ∀ a b : JVal, jeqVal a b = true ↔ a = b
  | undef, b => by cases b <;> simp [jeqVal]
  | null, b => by cases b <;> simp [jeqVal]
  | bool _, b => by cases b <;> simp [jeqVal]
  | num _, b => by cases b <;> simp [jeqVal]
  | str _, b => by cases b <;> simp [jeqVal]
  | arr xs, b => by
      cases b <;> simp [jeqVal]
      exact jeqElems_eq xs _
  | obj fs, b => by
      cases b <;> simp [jeqVal]
      exact jeqFields_eq fs _

def jeqElems_eq : ∀ xs ys : List JVal, jeqElems xs ys = true ↔ xs = ys
  | [], ys => by cases ys <;> simp [jeqElems]
  | x :: xs, ys => by
      cases ys with
      | nil => simp [jeqElems]
      | cons y ys => simp [jeqElems, jeqVal_eq x y, jeqElems_eq xs ys]

def jeqFields_eq : ∀ fs gs : List (String × JVal), jeqFields fs gs = true ↔ fs = gs
  | [], gs => by cases gs <;> simp [jeqFields]
  | (k, v) :: fs, gs => by
      cases gs with
      | nil => simp [jeqFields]
      | cons g gs =>
          obtain ⟨l, w⟩ := g
          simp [jeqFields, jeqVal_eq v w, jeqFields_eq fs gs, and_assoc]

end

instance : DecidableEq JVal := fun a b => decidable_of_iff _ (jeqVal_eq a b)

/-- First-match association-list lookup: JavaScript own-property read on an
object (`o[k]`); JavaScript objects never hold a key twice. -/
def lookupF : List (String × JVal) → String → Option JVal
  | [], _ => none
  | (k, v) :: rest, key => if k = key then some v else lookupF rest key

/-- JavaScript property assignment `o[k] = v` on an object: replaces the
value of an existing key in place (keeping its position) or appends a new
key at the end, as JavaScript property insertion order does. -/
def assignKey : List (String × JVal) → String → JVal → List (String × JVal)
  | [], key, v => [(key, v)]
  | (k, w) :: rest, key, v =>
      if k = key then (k, v) :: rest else (k, w) :: assignKey rest key v

/-- JavaScript `delete o[k]` on an object: removes the key if present. -/
def eraseKey : List (String × JVal) → String → List (String × JVal)
  | [], _ => []
  | (k, w) :: rest, key => if k = key then rest else (k, w) :: eraseKey rest key

/-- A string that is a canonical array index ("0", "17", but not "01" or
"+1"), as used by JavaScript array element access. -/
def canonIdx (p : String) : Option Nat :=
  match p.toNat? with
  | some n => if toString n = p then some n else none
  | none => none

/-- Write an array element at index `n`, extending the array with holes
(which read back as `undefined`) when `n` is past the end, as JavaScript
`a[n] = v` does. -/
def listSetPad (xs : List JVal) (n : Nat) (v : JVal) : List JVal :=
  if n < xs.length then xs.set n v
  else xs ++ List.replicate (n - xs.length) JVal.undef ++ [v]

/-- `typeof x === 'object' && x !== null`: true exactly for objects and
arrays.  (`typeof null` is `'object'` in JavaScript, so the code always
pairs the typeof test with an explicit null test; this predicate is that
pair.) -/
def isNonNullObject : JVal → Bool
  | obj _ => true
  | arr _ => true
  | _ => false

/-- `Object.prototype.hasOwnProperty.call(x, p)` for the values the store
walks: object keys, and canonical numeric indices of arrays. -/
def hasOwn : JVal → String → Bool
  | obj fs, p => (lookupF fs p).isSome
  | arr xs, p => match canonIdx p with
      | some n => n < xs.length
      | none => false
  | _, _ => false

/-- Own-property read `x[p]`, yielding `undef` when the property is absent
(JavaScript reads of missing properties yield `undefined`). -/
def getOwn : JVal → String → JVal
  | obj fs, p => (lookupF fs p).getD JVal.undef
  | arr xs, p => match canonIdx p with
      | some n => xs.getD n JVal.undef
      | none => JVal.undef
  | _, _ => JVal.undef

/-- Own-property write `x[p] = v` for objects and array indices. -/
def setOwn : JVal → String → JVal → JVal
  | obj fs, p, v => obj (assignKey fs p v)
  | arr xs, p, v => match canonIdx p with
      | some n => arr (listSetPad xs n v)
      | none => arr xs
  | x, _, _ => x

/-- `delete x[p]`: removes an object key; on an array it leaves a hole,
which reads back as `undefined` and serializes as `null`. -/
def eraseOwn : JVal → String → JVal
  | obj fs, p => obj (eraseKey fs p)
  | arr xs, p => match canonIdx p with
      | some n => if n < xs.length then arr (xs.set n JVal.undef) else arr xs
      | none => arr xs
  | x, _ => x

mutual

/-- `JSON.parse(JSON.stringify x)`: drops `undef`-valued object fields and
turns `undef` array elements into `null`; the identity on JSON data. -/
def normalize : JVal → JVal
  | obj fs => obj (normFields fs)
  | arr xs => arr (normElems xs)
  | v => v

/-- `normalize` on the field list of an object. -/
def normFields : List (String × JVal) → List (String × JVal)
  | [] => []
  | (_, undef) :: rest => normFields rest
  | (k, v) :: rest => (k, normalize v) :: normFields rest

/-- `normalize` on the element list of an array. -/
def normElems : List JVal → List JVal
  | [] => []
  | undef :: rest => null :: normElems rest
  | v :: rest => normalize v :: normElems rest

end

mutual

/-- Embeds `isDeepStrictEqual` (src/unnamed/part_004, lines 165-184): `true`
when the values are identical (the `===` short-circuit; on primitives this
is exactly `===`), otherwise `false` unless both are non-null objects, in
which case their own keys are counted and compared pairwise.  Because the
comparison works through `Object.keys`, an array and an object with the
same canonical-index keys compare equal, which the case split reproduces. -/
def isDeepStrictEqual (a b : JVal) : Bool :=
  if a = b then true
  else
    match a, b with
    | obj fa, obj fb => fa.length = (fb.map Prod.fst).length && deepEqObjObj fa fb
    | obj fa, arr ys => fa.length = ys.length && deepEqObjArr fa ys
    | arr xs, obj fb => xs.length = fb.length && deepEqArrObj xs fb 0
    | arr xs, arr ys => xs.length = ys.length && deepEqArrArr xs ys
    | _, _ => false
  termination_by structural a

/-- Per-key comparison of two objects' field lists: every key of the first
must be an own property of the second with a deep-equal value. -/
def deepEqObjObj : List (String × JVal) → List (String × JVal) → Bool
  | [], _ => true
  | (k, v) :: rest, fb =>
      (match lookupF fb k with
       | some w => isDeepStrictEqual v w
       | none => false) && deepEqObjObj rest fb
  termination_by structural fa => fa

/-- Per-key comparison of an object's fields against an array's indexed own
properties. -/
def deepEqObjArr : List (String × JVal) → List JVal → Bool
  | [], _ => true
  | (k, v) :: rest, ys =>
      (match canonIdx k with
       | some n => if h : n < ys.length then isDeepStrictEqual v (ys.get ⟨n, h⟩) else false
       | none => false) && deepEqObjArr rest ys
  termination_by structural fa => fa

/-- Per-index comparison of an array's elements against an object's fields. -/
def deepEqArrObj : List JVal → List (String × JVal) → Nat → Bool
  | [], _, _ => true
  | x :: xs, fb, i =>
      (match lookupF fb (toString i) with
       | some w => isDeepStrictEqual x w
       | none => false) && deepEqArrObj xs fb (i + 1)
  termination_by structural xs => xs

/-- Element-wise comparison of two arrays of equal length. -/
def deepEqArrArr : List JVal → List JVal → Bool
  | [], _ => true
  | _ :: _, [] => false
  | x :: xs, y :: ys => isDeepStrictEqual x y && deepEqArrArr xs ys
  termination_by structural xs => xs

end

/-- The own enumerable properties of a value, in order, as JavaScript's
`Object.keys`, `for..in`, spread and `Object.assign` enumerate them: the
fields of an object, the indexed elements of an array, nothing for a
primitive. -/
def ownFields : JVal → List (String × JVal)
  | obj fs => fs
  | arr xs => xs.enum.map fun p => (toString p.1, p.2)
  | _ => []

/-- `Object.assign(base, upd)` on field lists: assigns every own enumerable
property of `upd`, in order, onto `base`. -/
def assignAll (base : List (String × JVal)) : List (String × JVal) → List (String × JVal)
  | [] => base
  | (k, v) :: rest => assignAll (assignKey base k v) rest

end JVal

open JVal

/-! ## Dot-path addressing (src/unnamed/part_004)

`getProperty`, `setProperty`, `hasProperty`, `deleteProperty`, each split
into a wrapper mirroring the function head (split on `'.'`, deep clone
where the source clones) and a recursion mirroring the source's loop. -/

/-- JavaScript `s.split('.')` on the character list: empty segments are
kept and the empty string splits to `[""]`.  (Spelled out rather than using
`String.splitOn` so that it is structurally recursive and reduces inside
the kernel.) -/
def splitDotChars : List Char → List (List Char)
  | [] => [[]]
  | c :: rest =>
      match splitDotChars rest with
      | [] => [[]]
      | seg :: segs => if c = '.' then [] :: seg :: segs else (c :: seg) :: segs

/-- `propertyPath.split('.')` (JavaScript `String.prototype.split` with
separator `'.'`). -/
def splitDot (s : String) : List String :=
  (splitDotChars s.data).map fun cs => String.mk cs

/-- Loop of `getProperty` (part_004 lines 36-45): walk the path parts; the
moment the current value is null, not an object, or lacks the part as an
own property, answer the default; after the walk, substitute the default
exactly when the final value is `undefined`. -/
def getPropGo (current : JVal) (parts : List String) (dflt : JVal) : JVal :=
  match parts with
  | [] => if current = JVal.undef then dflt else current
  | p :: rest =>
      if current.isNonNullObject && current.hasOwn p then getPropGo (current.getOwn p) rest dflt
      else dflt

/-- Embeds `getProperty` (part_004 lines 27-46); the omitted `defaultValue`
argument is JavaScript `undefined`, i.e. `JVal.undef`. -/
def getProperty (object : JVal) (propertyPath : String) (defaultValue : JVal := JVal.undef) :
    JVal :=
  getPropGo object (splitDot propertyPath) defaultValue

/-- Loop of `setProperty` (part_004 lines 63-73) over the deep clone: at the
last part write the value; at an intermediate part replace a null or
non-object child by `{}` and descend.  The write into the descendant is
reflected in the parent by rebuilding the field, which is how the source's
in-place write reads back from the clone's root. -/
def setGo (current : JVal) (parts : List String) (value : JVal) : JVal :=
  match parts with
  | [] => current
  | [p] => current.setOwn p value
  | p :: rest =>
      let child := current.getOwn p
      let child' := if child = JVal.null || !child.isNonNullObject then JVal.obj [] else child
      current.setOwn p (setGo child' rest value)

/-- Embeds `setProperty` (part_004 lines 51-75): deep-clones the input via
the JSON round-trip (`normalize`), then performs the walk on the clone. -/
def setProperty (object : JVal) (propertyPath : String) (value : JVal) : JVal :=
  setGo (normalize object) (splitDot propertyPath) value

/-- `setProperty` together with the caller's view of its input after the
call.  Every write the source performs targets `result` (the fresh
`JSON.parse(JSON.stringify(object))` clone, a tree sharing no node with the
input) or a node reached from `result`, so the document the caller passed
in is left exactly as it was; the pair makes that caller-visible state an
explicit output. -/
def setPropertyCall (object : JVal) (propertyPath : String) (value : JVal) : JVal × JVal :=
  (object, setProperty object propertyPath value)

/-- Loop of `hasProperty` (part_004 lines 96-105) for dotted paths: walk
requiring each part to be an own property of a non-null object, then answer
whether the value reached is not `undefined`. -/
def hasGo (current : JVal) (parts : List String) : Bool :=
  match parts with
  | [] => current ≠ JVal.undef
  | p :: rest =>
      if current.isNonNullObject && current.hasOwn p then hasGo (current.getOwn p) rest
      else false

/-- Embeds `hasProperty` (part_004 lines 80-106): a dot-free path is a
direct `hasOwnProperty` check; a dotted path walks. -/
def hasProperty (object : JVal) (propertyPath : String) : Bool :=
  let parts := splitDot propertyPath
  if parts.length = 1 then object.hasOwn propertyPath
  else hasGo object parts

/-- Loop of `deleteProperty` (part_004 lines 131-156) over the clone: walk
the intermediate parts, answering `(unchanged, false)` the moment one is
undefined, null or not an object; at the parent of the leaf, delete the
leaf if it is an own property.  As in `setGo`, the in-place delete is read
back from the root by rebuilding the field along the walk. -/
def delGo (current : JVal) (parts : List String) : JVal × Bool :=
  match parts with
  | [] => (current, false)
  | [p] => if current.hasOwn p then (current.eraseOwn p, true) else (current, false)
  | p :: rest =>
      let child := current.getOwn p
      if child = JVal.undef || child = JVal.null || !child.isNonNullObject then (current, false)
      else
        let r := delGo child rest
        (current.setOwn p r.1, r.2)

/-- Embeds `deleteProperty` (part_004 lines 112-157): deep-clones the input
via the JSON round-trip; a dot-free path records `hasOwnProperty`, deletes
unconditionally and reports whether the key existed; a dotted path walks. -/
def deleteProperty (object : JVal) (propertyPath : String) : JVal × Bool :=
  let result := normalize object
  match splitDot propertyPath with
  | [q] => (result.eraseOwn q, result.hasOwn q)
  | parts => delGo result parts

/-- `deleteProperty` together with the caller's view of its input after the
call, on the same grounds as `setPropertyCall`: the source's deletes and
writes all target the clone. -/
def deletePropertyCall (object : JVal) (propertyPath : String) : JVal × (JVal × Bool) :=
  (object, deleteProperty object propertyPath)

/-! ## The store file and the store state

The store instance's mutable state is its file on disk and its in-memory
cache `_store`.  The file is `missing`, `corrupt` (present but unparseable)
or `stored d`; `atomicWriteFileSync(path, JSON.stringify(doc))` followed by
a parse yields `normalize doc`, so a successful write stores that.  A
failed write (the write or the rename throws) leaves the target file as it
was, because the write goes to a temporary sibling which is only renamed
onto the target on success (utils `atomicWriteFileSync`); each operation
takes a `Bool` saying whether its write succeeds. -/

inductive FileState where
  | missing
  | corrupt
  | stored (d : JVal)
deriving Repr, DecidableEq

/-- `fs.readFileSync` + `JSON.parse` of the store file: a document when the
file exists and parses, otherwise the thrown error (modelled as `none`). -/
def readParse : FileState → Option JVal
  | .stored d => some d
  | _ => none

structure SState where
  file : FileState
  cache : JVal
deriving Repr, DecidableEq

/-! ## Change listeners and dispatch (index.ts lines 431-465)

A listener is modelled by the one behaviour the dispatch loop can observe:
whether invoking it throws.  Dispatch produces the list of invocation
events (which listener ran, with which new/old arguments) in order, and
whether an exception escaped to the mutating caller; the loops have no
try/catch, so a throwing listener's exception aborts everything after it. -/

structure Listener where
  throws : Bool
deriving Repr, DecidableEq

/-- `onDidAnyChangeListeners` (registration order) and
`onDidChangeListeners` (a Map from key to its callback array, iterated in
insertion order). -/
structure Registries where
  anyListeners : List Listener
  keyListeners : List (String × List Listener)
deriving Repr, DecidableEq

inductive Event where
  | anyChange (idx : Nat) (newDoc oldDoc : JVal)
  | keyChange (key : String) (idx : Nat) (newVal oldVal : JVal)
deriving Repr, DecidableEq

/-- `for (const listener of listeners) listener(newV, oldV)`: each listener
runs in order; a throwing listener still runs (its event is recorded) and
then aborts the loop with the exception propagating. -/
def runListeners (ls : List Listener) (mk : Nat → Event) (start : Nat) : List Event × Bool :=
  match ls with
  | [] => ([], false)
  | l :: rest =>
      if l.throws then ([mk start], true)
      else
        let r := runListeners rest mk (start + 1)
        (mk start :: r.1, r.2)

/-- The keyed loop (index.ts lines 455-464): for each watched key, compare
`getProperty oldStore key` with `getProperty freshStore key`; on a
difference run that key's listeners.  An exception aborts the remaining
keys. -/
def runKeyed (oldStore freshStore : JVal) : List (String × List Listener) → List Event × Bool
  | [] => ([], false)
  | (k, ls) :: rest =>
      let oldV := getProperty oldStore k
      let newV := getProperty freshStore k
      if isDeepStrictEqual oldV newV then runKeyed oldStore freshStore rest
      else
        let r := runListeners ls (fun i => .keyChange k i newV oldV) 0
        if r.2 then (r.1, true)
        else
          let rr := runKeyed oldStore freshStore rest
          (r.1 ++ rr.1, rr.2)

/-- The "fresh" snapshot of `_handlePossibleChange` (index.ts lines
433-445): start from a shallow copy of the cache, then `Object.assign` the
document parsed from disk over it; if the disk read fails, keep the cache
copy. -/
def computeFresh (cache : JVal) (file : FileState) : JVal :=
  match readParse file with
  | some parsed => JVal.obj (assignAll cache.ownFields parsed.ownFields)
  | none => JVal.obj cache.ownFields

structure DispatchOut where
  events : List Event
  threw : Bool
  fresh : JVal
deriving Repr, DecidableEq

/-- Embeds `_handlePossibleChange` (index.ts lines 431-465): compute the
fresh snapshot, run the wildcard registry when the whole documents differ
by `isDeepStrictEqual`, then the keyed registry per watched key. -/
def handlePossibleChange (regs : Registries) (oldStore cache : JVal) (file : FileState) :
    DispatchOut :=
  let fresh := computeFresh cache file
  if isDeepStrictEqual oldStore fresh then
    let rk := runKeyed oldStore fresh regs.keyListeners
    ⟨rk.1, rk.2, fresh⟩
  else
    let r := runListeners regs.anyListeners (fun i => .anyChange i fresh oldStore) 0
    if r.2 then ⟨r.1, true, fresh⟩
    else
      let rk := runKeyed oldStore fresh regs.keyListeners
      ⟨r.1 ++ rk.1, rk.2, fresh⟩

/-! ## The store operations (index.ts) -/

structure GetterOut where
  val : JVal
  state : SState
deriving Repr, DecidableEq

/-- Embeds the `store` getter (index.ts lines 256-275): read and parse the
file, updating the cache with the disk contents; on a missing or corrupt
file fall back to a shallow copy of the defaults (or `{}`), rewrite the
file with that fallback (failure swallowed), and cache it. -/
def storeGetter (defaults : Option JVal) (wok : Bool) (s : SState) : GetterOut :=
  match readParse s.file with
  | some parsed => ⟨parsed, { s with cache := parsed }⟩
  | none =>
      let initial := match defaults with
        | some df => JVal.obj df.ownFields
        | none => JVal.obj []
      let file' := if wok then FileState.stored (normalize initial) else s.file
      ⟨initial, ⟨file', initial⟩⟩

/-- Embeds the `store` setter (index.ts lines 276-286): on a successful
write the file holds the serialized value and the cache is updated to the
value; the catch swallows a write failure, leaving file and cache as they
were. -/
def storeSetter (wok : Bool) (s : SState) (value : JVal) : SState :=
  if wok then ⟨FileState.stored (normalize value), value⟩ else s

structure GetOut where
  val : JVal
  state : SState
  readDisk : Bool
deriving Repr, DecidableEq

/-- Embeds `get` (index.ts lines 289-318): when the cache has at least one
key and holds a defined value at the key, answer from the cache with no
disk access; otherwise read and parse the file, cache the parsed document
and answer `getProperty` of it with the supplied default; if the read
fails, answer the default with the cache untouched. -/
def getOp (key : String) (dflt : JVal) (s : SState) : GetOut :=
  let cacheHit :=
    if s.cache.ownFields.length > 0 then
      let v := getProperty s.cache key JVal.undef
      if v ≠ JVal.undef then some v else none
    else none
  match cacheHit with
  | some v => ⟨v, s, false⟩
  | none =>
      match readParse s.file with
      | some fromDisk => ⟨getProperty fromDisk key dflt, { s with cache := fromDisk }, true⟩
      | none => ⟨dflt, s, true⟩

structure SetOut where
  state : SState
  events : List Event
  threw : Bool
  oldStore : JVal
  updated : JVal
deriving Repr, DecidableEq

/-- Embeds `set` with a string key (index.ts lines 320-370): re-read the
store via the getter, keep a JSON-round-trip snapshot as `oldStore`,
compute the updated document (`setProperty` for a dotted key, spread plus
direct assignment for a dot-free key), advance the cache to the updated
document BEFORE writing, write (a failure is caught and only logged), and
dispatch.  The object-argument overload (lines 344-355) is not exercised by
any claim and is not embedded. -/
def setKeyOp (defaults : Option JVal) (wokGetter wokWrite : Bool) (regs : Registries)
    (key : String) (value : JVal) (s : SState) : SetOut :=
  let g := storeGetter defaults wokGetter s
  let latest := g.val
  let oldStore := normalize latest
  let updated :=
    if key.data.contains '.' then setProperty latest key value
    else JVal.obj (JVal.assignKey latest.ownFields key value)
  let s2 : SState := { g.state with cache := updated }
  let s3 : SState := if wokWrite then { s2 with file := FileState.stored (normalize updated) } else s2
  let d := handlePossibleChange regs oldStore s3.cache s3.file
  ⟨s3, d.events, d.threw, oldStore, updated⟩

/-- Embeds `has` (index.ts lines 372-376): `hasProperty` on the getter's
document. -/
def hasOp (defaults : Option JVal) (wok : Bool) (key : String) (s : SState) : Bool × SState :=
  let g := storeGetter defaults wok s
  (hasProperty g.val key, g.state)

structure DelOut where
  result : Bool
  state : SState
  events : List Event
  threw : Bool
deriving Repr, DecidableEq

/-- Embeds `delete` (index.ts lines 378-393): clone the getter's document,
answer `false` when `hasProperty` fails, otherwise delete via
`deleteProperty`, persist through the store setter and dispatch, answering
`true`. -/
def deleteOp (defaults : Option JVal) (wokGetter wokWrite : Bool) (regs : Registries)
    (key : String) (s : SState) : DelOut :=
  let g := storeGetter defaults wokGetter s
  let storeInstance := normalize g.val
  let oldStore := normalize storeInstance
  if hasProperty storeInstance key then
    let r := deleteProperty storeInstance key
    let s2 := storeSetter wokWrite g.state r.1
    let d := handlePossibleChange regs oldStore s2.cache s2.file
    ⟨true, s2, d.events, d.threw⟩
  else ⟨false, g.state, [], false⟩

/-- The zero-delay `setTimeout` re-verification step that `clear` schedules
(index.ts lines 407-425). -/
inductive DeferredTask where
  | clearVerify
deriving Repr, DecidableEq

structure ClearOut where
  state : SState
  events : List Event
  threw : Bool
  deferred : List DeferredTask
deriving Repr, DecidableEq

/-- Embeds `clear` (index.ts lines 395-429): snapshot the getter's document
through a JSON round-trip, write `{}` through the store setter, schedule
the deferred `setTimeout(..., 0)` verification task, and dispatch. -/
def clearOp (defaults : Option JVal) (wokGetter wokWrite : Bool) (regs : Registries)
    (s : SState) : ClearOut :=
  let g := storeGetter defaults wokGetter s
  let oldStore := normalize g.val
  let s2 := storeSetter wokWrite g.state (JVal.obj [])
  let deferred := [DeferredTask.clearVerify]
  let d := handlePossibleChange regs oldStore s2.cache s2.file
  ⟨s2, d.events, d.threw, deferred⟩

/-- Embeds `initializeStore` (index.ts lines 200-254): read the file
(corruption reads as `{}` with `fileExists` already true); with a non-empty
defaults object, overlay the disk document's own fields, per field, onto a
JSON-round-trip copy of the defaults, write the merge back (failure
swallowed) and cache it; with no (or empty) defaults, cache the disk
document when the file exists, else cache `{}` and write it. -/
def initStore (defaults : Option JVal) (wok : Bool) (file : FileState) : SState :=
  let fileExists := file ≠ FileState.missing
  let diskData := match file with
    | FileState.stored d => d
    | _ => JVal.obj []
  let hasDefaults : Bool := match defaults with
    | some df => decide (df.ownFields.length > 0)
    | none => false
  if hasDefaults then
    let df := (defaults.getD (JVal.obj []))
    let merged0 := normalize df
    let merged :=
      if fileExists && diskData.isNonNullObject then
        JVal.obj (assignAll merged0.ownFields diskData.ownFields)
      else merged0
    let file' := if wok then FileState.stored (normalize merged) else file
    ⟨file', merged⟩
  else if fileExists then ⟨file, diskData⟩
  else ⟨(if wok then FileState.stored (normalize (JVal.obj [])) else file), JVal.obj []⟩

/-! ## Specification-level definitions used to state the claims -/

/-- "Every segment of the path exists": each part in turn is an own
property of the value walked so far. -/
def ownPath (cur : JVal) : List String → Bool
  | [] => true
  | p :: rest => cur.hasOwn p && ownPath (cur.getOwn p) rest

/-- "Every intermediate segment exists": like `ownPath` but the leaf
segment itself is not required to exist. -/
def intsPresent (cur : JVal) : List String → Bool
  | [] => true
  | [_] => true
  | p :: rest => cur.hasOwn p && intsPresent (cur.getOwn p) rest

/-- Modelled from the spec's words for `delete(doc, path)`: "removes only
the leaf field" — rebuild the walked spine unchanged and erase exactly the
leaf own property at its parent. -/
def removeSpec (cur : JVal) : List String → JVal
  | [] => cur
  | [p] => cur.eraseOwn p
  | p :: rest => cur.setOwn p (removeSpec (cur.getOwn p) rest)

/-- JavaScript `typeof x === 'object'`: objects, arrays and `null`. -/
def isObjectTypeof : JVal → Bool
  | JVal.obj _ => true
  | JVal.arr _ => true
  | JVal.null => true
  | _ => false

/-- Modelled from the spec's words for `get(doc, path, default?)`: walk the
path segments, returning the default "the moment any segment is missing,
not an object, or null; otherwise returns the final value, substituting
default only if the final value is itself undefined". -/
def getPropSpecGo (cur : JVal) (parts : List String) (dflt : JVal) : JVal :=
  match parts with
  | [] => if cur = JVal.undef then dflt else cur
  | p :: rest =>
      if !cur.hasOwn p || !isObjectTypeof cur || cur = JVal.null then dflt
      else getPropSpecGo (cur.getOwn p) rest dflt

/-- The keyed-callback invocations for one watched key, among a dispatch's
events. -/
def keyEventsFor (evs : List Event) (w : String) : List Event :=
  evs.filter fun e => match e with
    | Event.keyChange k _ _ _ => decide (k = w)
    | _ => false

/-- The wildcard-callback invocations among a dispatch's events. -/
def anyEvents (evs : List Event) : List Event :=
  evs.filter fun e => match e with
    | Event.anyChange _ _ _ => true
    | _ => false

/-! ## Association-list lemmas -/

theorem splitDotChars_ne_nil (cs : List Char) : splitDotChars cs ≠ [] := by
  cases cs with
  | nil => simp [splitDotChars]
  | cons c rest =>
      simp only [splitDotChars]
      rcases h : splitDotChars rest with _ | ⟨seg, segs⟩
      · simp
      · by_cases hc : c = '.' <;> simp [hc]

theorem splitDot_ne_nil (s : String) : splitDot s ≠ [] := by
  simp [splitDot, splitDotChars_ne_nil]



theorem lookupF_assignKey (fs : List (String × JVal)) (k k' : String) (v : JVal) :
    lookupF (assignKey fs k v) k' = if k' = k then some v else lookupF fs k' := by
  induction fs with
  | nil =>
      by_cases h : k' = k
      · subst h
        simp [assignKey, lookupF]
      · simp [assignKey, lookupF, h, Ne.symm h]
  | cons p rest ih =>
      obtain ⟨k1, w⟩ := p
      by_cases h1 : k1 = k
      · subst h1
        by_cases h2 : k' = k1
        · subst h2
          simp [assignKey, lookupF]
        · simp [assignKey, lookupF, h2, Ne.symm h2]
      · by_cases h2 : k1 = k'
        · subst h2
          simp [assignKey, h1, lookupF]
        · simp [assignKey, h1, lookupF, h2, ih]

theorem assignKey_self (fs : List (String × JVal)) (k : String) (v : JVal)
    (h : lookupF fs k = some v) : assignKey fs k v = fs := by
  induction fs with
  | nil => simp [lookupF] at h
  | cons p rest ih =>
      obtain ⟨k1, w⟩ := p
      by_cases h1 : k1 = k
      · subst h1
        simp [lookupF] at h
        simp [assignKey, h]
      · simp [lookupF, h1] at h
        simp [assignKey, h1, ih h]

theorem keysOf_assignKey_isSome (fs : List (String × JVal)) (k : String) (v : JVal)
    (h : (lookupF fs k).isSome) : (assignKey fs k v).map Prod.fst = fs.map Prod.fst := by
  induction fs with
  | nil => simp [lookupF] at h
  | cons p rest ih =>
      obtain ⟨k1, w⟩ := p
      by_cases h1 : k1 = k
      · simp [assignKey, h1]
      · simp [lookupF, h1] at h
        simp [assignKey, h1, ih h]

theorem keysOf_assignKey_none (fs : List (String × JVal)) (k : String) (v : JVal)
    (h : lookupF fs k = none) : (assignKey fs k v).map Prod.fst = fs.map Prod.fst ++ [k] := by
  induction fs with
  | nil => simp [assignKey]
  | cons p rest ih =>
      obtain ⟨k1, w⟩ := p
      by_cases h1 : k1 = k
      · simp [lookupF, h1] at h
      · simp [lookupF, h1] at h
        simp [assignKey, h1, ih h]

theorem lookupF_none_iff (fs : List (String × JVal)) (key : String) :
    lookupF fs key = none ↔ key ∉ fs.map Prod.fst := by
  induction fs with
  | nil => simp [lookupF]
  | cons p rest ih =>
      obtain ⟨k1, w⟩ := p
      by_cases h1 : k1 = key
      · subst h1
        simp [lookupF]
      · simp [lookupF, h1, ih, Ne.symm h1]

theorem nodup_assignKey (fs : List (String × JVal)) (k : String) (v : JVal)
    (h : (fs.map Prod.fst).Nodup) : ((assignKey fs k v).map Prod.fst).Nodup := by
  rcases hs : lookupF fs k with _ | w
  · rw [keysOf_assignKey_none fs k v hs]
    refine List.Nodup.append h (List.nodup_singleton k) ?_
    intro a ha hb
    simp only [List.mem_singleton] at hb
    subst hb
    exact ((lookupF_none_iff fs a).mp hs) ha
  · rw [keysOf_assignKey_isSome fs k v (by simp [hs])]
    exact h

theorem lookupF_of_nodup_mem (fs : List (String × JVal)) (key : String) (v : JVal)
    (hn : (fs.map Prod.fst).Nodup) (hm : (key, v) ∈ fs) : lookupF fs key = some v := by
  induction fs with
  | nil => simp at hm
  | cons p rest ih =>
      obtain ⟨k1, w⟩ := p
      simp only [List.map_cons, List.nodup_cons] at hn
      rcases List.mem_cons.mp hm with hm1 | hm2
      · rw [Prod.mk.injEq] at hm1
        simp [lookupF, hm1.1, hm1.2]
      · have hk : k1 ≠ key := by
          intro he
          apply hn.1
          subst he
          exact List.mem_map_of_mem Prod.fst hm2
        simp [lookupF, hk, ih hn.2 hm2]

theorem lookupF_assignAll_none (base upd : List (String × JVal)) (key : String)
    (h : lookupF upd key = none) :
    lookupF (assignAll base upd) key = lookupF base key := by
  induction upd generalizing base with
  | nil => simp [assignAll]
  | cons p rest ih =>
      obtain ⟨k, v⟩ := p
      by_cases hk : k = key
      · simp [lookupF, hk] at h
      · simp only [lookupF, hk, if_false] at h
        rw [assignAll, ih _ h, lookupF_assignKey]
        have hke : ¬ key = k := fun hh => hk hh.symm
        simp [hke]

theorem lookupF_assignAll_some (base upd : List (String × JVal)) (key : String) (v : JVal)
    (hn : (upd.map Prod.fst).Nodup) (h : lookupF upd key = some v) :
    lookupF (assignAll base upd) key = some v := by
  induction upd generalizing base with
  | nil => simp [lookupF] at h
  | cons p rest ih =>
      obtain ⟨k, w⟩ := p
      simp only [List.map_cons, List.nodup_cons] at hn
      by_cases hk : k = key
      · subst hk
        have h' : w = v := by simpa [lookupF] using h
        subst h'

        have hr : lookupF rest k = none := (lookupF_none_iff rest k).mpr hn.1
        rw [assignAll, lookupF_assignAll_none _ _ _ hr, lookupF_assignKey]
        simp
      · simp only [lookupF, hk, if_false] at h
        rw [assignAll]
        exact ih _ hn.2 h

theorem assignAll_absorb (base upd : List (String × JVal))
    (h : ∀ p ∈ upd, lookupF base p.1 = some p.2) : assignAll base upd = base := by
  induction upd with
  | nil => simp [assignAll]
  | cons p rest ih =>
      obtain ⟨k, v⟩ := p
      rw [assignAll, assignKey_self base k v (h (k, v) (List.mem_cons_self _ _))]
      exact ih fun q hq => h q (List.mem_cons_of_mem _ hq)

theorem nodup_assignAll (base upd : List (String × JVal))
    (h : (base.map Prod.fst).Nodup) : ((assignAll base upd).map Prod.fst).Nodup := by
  induction upd generalizing base with
  | nil => simpa [assignAll] using h
  | cons p rest ih =>
      obtain ⟨k, v⟩ := p
      rw [assignAll]
      exact ih _ (nodup_assignKey base k v h)

theorem normFields_length_le (fs : List (String × JVal)) :
    (normFields fs).length ≤ fs.length := by
  induction fs with
  | nil => simp [normFields]
  | cons p rest ih =>
      obtain ⟨k, v⟩ := p
      cases v <;> simp [normFields] <;> omega

theorem normFields_cons_self (k : String) (v : JVal) (rest : List (String × JVal))
    (h : normFields ((k, v) :: rest) = (k, v) :: rest) :
    v ≠ JVal.undef ∧ normalize v = v ∧ normFields rest = rest := by
  by_cases hv : v = JVal.undef
  · subst hv
    rw [show normFields ((k, JVal.undef) :: rest) = normFields rest from rfl] at h
    have hl := normFields_length_le rest
    rw [h] at hl
    simp at hl
  · have heq : normFields ((k, v) :: rest) = (k, normalize v) :: normFields rest := by
      cases v <;> first | exact absurd rfl hv | simp [normFields]
    rw [heq] at h
    simp only [List.cons.injEq, Prod.mk.injEq] at h
    exact ⟨hv, h.1.2, h.2⟩

theorem normFields_assignKey (fs : List (String × JVal)) (k : String) (v : JVal)
    (hfs : normFields fs = fs) (hv : v ≠ JVal.undef) (hnv : normalize v = v) :
    normFields (assignKey fs k v) = assignKey fs k v := by
  induction fs with
  | nil =>
      cases v <;> simp_all [assignKey, normFields]
  | cons q rest ih =>
      obtain ⟨k1, w⟩ := q
      obtain ⟨hw, hnw, hrest⟩ := normFields_cons_self k1 w rest hfs
      by_cases hk : k1 = k
      · subst hk
        have : assignKey ((k1, w) :: rest) k1 v = (k1, v) :: rest := by simp [assignKey]
        rw [this]
        have heq : normFields ((k1, v) :: rest) = (k1, normalize v) :: normFields rest := by
          cases v <;> first | exact absurd rfl hv | simp [normFields]
        rw [heq, hnv, hrest]
      · have : assignKey ((k1, w) :: rest) k v = (k1, w) :: assignKey rest k v := by
          simp [assignKey, hk]
        rw [this]
        have heq : normFields ((k1, w) :: assignKey rest k v) =
            (k1, normalize w) :: normFields (assignKey rest k v) := by
          cases w <;> first | exact absurd rfl hw | simp [normFields]
        rw [heq, hnw, ih hrest]

theorem listSet_getElem_self (xs : List JVal) (n : Nat) (h : n < xs.length) :
    xs.set n (xs.get ⟨n, h⟩) = xs := by
  induction xs generalizing n with
  | nil => simp at h
  | cons x rest ih =>
      cases n with
      | zero => simp
      | succ m =>
          simp only [List.length_cons, Nat.succ_lt_succ_iff] at h
          simpa using ih m h

theorem setOwn_getOwn_self (cur : JVal) (p : String) (h : cur.hasOwn p = true) :
    cur.setOwn p (cur.getOwn p) = cur := by
  cases cur with
  | obj fs =>
      rcases hl : lookupF fs p with _ | w
      · simp [hasOwn, hl] at h
      · simp [setOwn, getOwn, hl, assignKey_self fs p w hl]
  | arr xs =>
      rcases hc : canonIdx p with _ | n
      · simp [hasOwn, hc] at h
      · have hn : n < xs.length := by simpa [hasOwn, hc] using h
        simp [setOwn, getOwn, hc, listSetPad, hn]
        exact listSet_getElem_self xs n hn
  | undef => simp [hasOwn] at h
  | null => simp [hasOwn] at h
  | bool b => simp [hasOwn] at h
  | num n => simp [hasOwn] at h
  | str s => simp [hasOwn] at h

theorem getOwn_of_not_hasOwn (cur : JVal) (p : String) (h : cur.hasOwn p = false) :
    cur.getOwn p = JVal.undef := by
  cases cur with
  | obj fs =>
      rcases hl : lookupF fs p with _ | w
      · simp [getOwn, hl]
      · simp [hasOwn, hl] at h
  | arr xs =>
      rcases hc : canonIdx p with _ | n
      · simp [getOwn, hc]
      · have hn : xs.length ≤ n := Nat.le_of_not_lt (by simpa [hasOwn, hc] using h)
        simp only [getOwn, hc]
        exact List.getD_eq_default xs JVal.undef hn
  | undef => simp [getOwn]
  | null => simp [getOwn]
  | bool b => simp [getOwn]
  | num n => simp [getOwn]
  | str s => simp [getOwn]

theorem runListeners_no_throw (ls : List Listener) (mk : Nat → Event) (start : Nat)
    (h : ∀ l ∈ ls, l.throws = false) :
    runListeners ls mk start = ((List.range ls.length).map fun i => mk (start + i), false) := by
  induction ls generalizing start with
  | nil => simp [runListeners]
  | cons l rest ih =>
      have hl : l.throws = false := h l (List.mem_cons_self _ _)
      rw [runListeners, ih (start + 1) fun x hx => h x (List.mem_cons_of_mem _ hx)]
      simp only [hl, Bool.false_eq_true, if_false, List.length_cons, Prod.mk.injEq, and_true]
      rw [List.range_succ_eq_map, List.map_cons, List.map_map]
      congr 1
      refine List.map_congr_left fun a _ => ?_
      simp only [Function.comp_apply]
      congr 1
      omega

theorem runListeners_no_throw_zero (ls : List Listener) (mk : Nat → Event)
    (h : ∀ l ∈ ls, l.throws = false) :
    runListeners ls mk 0 = ((List.range ls.length).map mk, false) := by
  rw [runListeners_no_throw ls mk 0 h]
  refine Prod.ext ?_ rfl
  simp

theorem runKeyed_no_throw (oldStore freshStore : JVal) (ks : List (String × List Listener))
    (h : ∀ p ∈ ks, ∀ l ∈ p.2, l.throws = false) :
    runKeyed oldStore freshStore ks =
      (ks.flatMap fun p =>
        if isDeepStrictEqual (getProperty oldStore p.1) (getProperty freshStore p.1) then []
        else (List.range p.2.length).map fun i =>
          Event.keyChange p.1 i (getProperty freshStore p.1) (getProperty oldStore p.1),
       false) := by
  induction ks with
  | nil => simp [runKeyed]
  | cons p rest ih =>
      obtain ⟨k, ls⟩ := p
      have hrest : ∀ q ∈ rest, ∀ l ∈ q.2, l.throws = false :=
        fun q hq => h q (List.mem_cons_of_mem _ hq)
      rw [runKeyed]
      by_cases hd : isDeepStrictEqual (getProperty oldStore k) (getProperty freshStore k)
      · rw [if_pos hd, ih hrest]
        simp [hd]
      · rw [if_neg hd]
        have hls : ∀ l ∈ ls, l.throws = false := h (k, ls) (List.mem_cons_self _ _)
        rw [runListeners_no_throw_zero _ _ hls]
        simp only [Bool.false_eq_true, if_false]
        rw [ih hrest]
        simp [hd]

theorem handle_no_throw (regs : Registries) (oldStore cache : JVal) (file : FileState)
    (hA : ∀ l ∈ regs.anyListeners, l.throws = false)
    (hK : ∀ p ∈ regs.keyListeners, ∀ l ∈ p.2, l.throws = false) :
    handlePossibleChange regs oldStore cache file =
      ⟨(if isDeepStrictEqual oldStore (computeFresh cache file) then []
        else (List.range regs.anyListeners.length).map fun i =>
          Event.anyChange i (computeFresh cache file) oldStore) ++
        (regs.keyListeners.flatMap fun p =>
          if isDeepStrictEqual (getProperty oldStore p.1)
              (getProperty (computeFresh cache file) p.1) then []
          else (List.range p.2.length).map fun i =>
            Event.keyChange p.1 i (getProperty (computeFresh cache file) p.1)
              (getProperty oldStore p.1)),
       false, computeFresh cache file⟩ := by
  rw [handlePossibleChange]
  by_cases hd : isDeepStrictEqual oldStore (computeFresh cache file)
  · simp only [hd, if_true, runKeyed_no_throw _ _ _ hK]
    simp
  · simp only [hd, Bool.false_eq_true, if_false,
      runListeners_no_throw_zero _ _ hA, runKeyed_no_throw _ _ _ hK]

theorem keyEventsFor_append (a b : List Event) (w : String) :
    keyEventsFor (a ++ b) w = keyEventsFor a w ++ keyEventsFor b w :=
  List.filter_append a b

theorem anyEvents_append (a b : List Event) :
    anyEvents (a ++ b) = anyEvents a ++ anyEvents b :=
  List.filter_append a b

theorem keyEventsFor_anyMap (l : List Nat) (nd od : JVal) (w : String) :
    keyEventsFor (l.map fun i => Event.anyChange i nd od) w = [] := by
  induction l with
  | nil => rfl
  | cons i rest ih => simpa [keyEventsFor, List.filter_cons] using ih

theorem anyEvents_anyMap (l : List Nat) (nd od : JVal) :
    anyEvents (l.map fun i => Event.anyChange i nd od) =
      l.map fun i => Event.anyChange i nd od := by
  induction l with
  | nil => rfl
  | cons i rest ih => simpa [anyEvents, List.filter_cons] using ih

theorem keyEventsFor_keyMap (k w : String) (l : List Nat) (nv ov : JVal) :
    keyEventsFor (l.map fun i => Event.keyChange k i nv ov) w =
      if k = w then l.map fun i => Event.keyChange k i nv ov else [] := by
  induction l with
  | nil => simp [keyEventsFor]
  | cons i rest ih =>
      by_cases h : k = w
      · simpa [keyEventsFor, List.filter_cons, h] using ih
      · simpa [keyEventsFor, List.filter_cons, h] using ih

theorem anyEvents_keyMap (k : String) (l : List Nat) (nv ov : JVal) :
    anyEvents (l.map fun i => Event.keyChange k i nv ov) = [] := by
  induction l with
  | nil => rfl
  | cons i rest ih => simpa [anyEvents, List.filter_cons] using ih

theorem keyEventsFor_kbind_not_mem (oldStore freshStore : JVal)
    (ks : List (String × List Listener)) (w : String) (hw : w ∉ ks.map Prod.fst) :
    keyEventsFor (ks.flatMap fun p =>
      if isDeepStrictEqual (getProperty oldStore p.1) (getProperty freshStore p.1) then []
      else (List.range p.2.length).map fun i =>
        Event.keyChange p.1 i (getProperty freshStore p.1) (getProperty oldStore p.1)) w
      = [] := by
  induction ks with
  | nil => simp [keyEventsFor]
  | cons p rest ih =>
      obtain ⟨k, ls⟩ := p
      simp only [List.map_cons, List.mem_cons, not_or] at hw
      rw [List.flatMap_cons, keyEventsFor_append]
      rw [ih hw.2]
      by_cases hd : isDeepStrictEqual (getProperty oldStore k) (getProperty freshStore k)
      · simp [hd, keyEventsFor]
      · simp only [hd, Bool.false_eq_true, if_false, List.append_nil]
        rw [keyEventsFor_keyMap]
        have hkw : ¬ k = w := fun hh => hw.1 hh.symm
        simp [hkw]

theorem keyEventsFor_kbind (oldStore freshStore : JVal)
    (ks : List (String × List Listener)) (w : String) (ls : List Listener)
    (hn : (ks.map Prod.fst).Nodup) (hm : (w, ls) ∈ ks) :
    keyEventsFor (ks.flatMap fun p =>
      if isDeepStrictEqual (getProperty oldStore p.1) (getProperty freshStore p.1) then []
      else (List.range p.2.length).map fun i =>
        Event.keyChange p.1 i (getProperty freshStore p.1) (getProperty oldStore p.1)) w
      = if isDeepStrictEqual (getProperty oldStore w) (getProperty freshStore w) then []
        else (List.range ls.length).map fun i =>
          Event.keyChange w i (getProperty freshStore w) (getProperty oldStore w) := by
  induction ks with
  | nil => simp at hm
  | cons p rest ih =>
      obtain ⟨k, kls⟩ := p
      simp only [List.map_cons, List.nodup_cons] at hn
      rw [List.flatMap_cons, keyEventsFor_append]
      rcases List.mem_cons.mp hm with hm1 | hm2
      · rw [Prod.mk.injEq] at hm1
        obtain ⟨hk, hls⟩ := hm1
        subst hk
        subst hls
        rw [keyEventsFor_kbind_not_mem _ _ _ _ hn.1, List.append_nil]
        by_cases hd : isDeepStrictEqual (getProperty oldStore w) (getProperty freshStore w)
        · simp [hd, keyEventsFor]
        · simp only [hd, Bool.false_eq_true, if_false]
          rw [keyEventsFor_keyMap]
          simp
      · have hk : k ≠ w := by
          intro he
          subst he
          exact hn.1 (by simpa using List.mem_map_of_mem Prod.fst hm2)
        rw [ih hn.2 hm2]
        by_cases hd : isDeepStrictEqual (getProperty oldStore k) (getProperty freshStore k)
        · simp [hd, keyEventsFor]
        · simp only [hd, Bool.false_eq_true, if_false]
          rw [keyEventsFor_keyMap]
          simp [hk]

theorem anyEvents_kbind (oldStore freshStore : JVal) (ks : List (String × List Listener)) :
    anyEvents (ks.flatMap fun p =>
      if isDeepStrictEqual (getProperty oldStore p.1) (getProperty freshStore p.1) then []
      else (List.range p.2.length).map fun i =>
        Event.keyChange p.1 i (getProperty freshStore p.1) (getProperty oldStore p.1)) = [] := by
  induction ks with
  | nil => simp [anyEvents]
  | cons p rest ih =>
      obtain ⟨k, kls⟩ := p
      rw [List.flatMap_cons, anyEvents_append, ih]
      by_cases hd : isDeepStrictEqual (getProperty oldStore k) (getProperty freshStore k)
      · simp [hd, anyEvents]
      · simp only [hd, Bool.false_eq_true, if_false, List.append_nil]
        exact anyEvents_keyMap k _ _ _

/-! ## Further supporting lemmas for the claim theorems -/

theorem getPropGo_eq_spec (parts : List String) (cur : JVal) (dflt : JVal) :
    getPropGo cur parts dflt = getPropSpecGo cur parts dflt := by
  induction parts generalizing cur with
  | nil => rfl
  | cons p rest ih =>
      rw [getPropGo, getPropSpecGo]
      cases cur with
      | undef => simp [isNonNullObject, isObjectTypeof, hasOwn]
      | null => simp [isNonNullObject, isObjectTypeof, hasOwn]
      | bool b => simp [isNonNullObject, isObjectTypeof, hasOwn]
      | num n => simp [isNonNullObject, isObjectTypeof, hasOwn]
      | str q => simp [isNonNullObject, isObjectTypeof, hasOwn]
      | arr xs =>
          by_cases h : (JVal.arr xs).hasOwn p <;>
            simp [isNonNullObject, isObjectTypeof, h, ih]
      | obj fs =>
          by_cases h : (JVal.obj fs).hasOwn p <;>
            simp [isNonNullObject, isObjectTypeof, h, ih]

theorem getPropGo_emptyObj (parts : List String) (dflt : JVal) (h : parts ≠ []) :
    getPropGo (JVal.obj []) parts dflt = dflt := by
  cases parts with
  | nil => exact absurd rfl h
  | cons p rest => simp [getPropGo, hasOwn, lookupF]

theorem hasProperty_emptyObj (key : String) : hasProperty (JVal.obj []) key = false := by
  rw [hasProperty]
  rcases h : splitDot key with _ | ⟨p, rest⟩
  · exact absurd h (splitDot_ne_nil key)
  · by_cases h1 : (p :: rest).length = 1 <;> simp [h, h1, hasOwn, lookupF, hasGo]

/-! ## Claim C7 -/

/-- Claim C7: for every document, string path and default, `getProperty`
walks the path segments and returns the default the moment any segment is
missing, the walked value is not an object, or it is null; otherwise it
returns the final value, substituting the default only when that final
value is itself `undefined`.  Stated as: the embedded `getProperty` agrees
with `getPropSpecGo`, the function written from the spec's words, on all
inputs. -/
theorem claim_C7_getProperty_follows_spec (object : JVal) (propertyPath : String)
    (defaultValue : JVal) :
    getProperty object propertyPath defaultValue =
      getPropSpecGo object (splitDot propertyPath) defaultValue :=
  getPropGo_eq_spec (splitDot propertyPath) object defaultValue

/-! ## Claim C3 -/

/-- Claim C3: for every input document, string path and value, the dot-path
set and delete return a new document and leave the caller's input document
structurally unchanged.  In the embedding the caller's view of the argument
after the call is the first component of `setPropertyCall` and
`deletePropertyCall`: the source functions deep-clone their input through
the JSON round-trip and perform every write on the clone, so that view is
the untouched input document, while the returned document is built from the
clone. -/
theorem claim_C3_set_delete_pure (object : JVal) (propertyPath : String) (value : JVal) :
    (setPropertyCall object propertyPath value).1 = object ∧
    (deletePropertyCall object propertyPath).1 = object :=
  ⟨rfl, rfl⟩

/-! ## Claim C1 -/

/-- Claim C1 as frozen is false on the code: `clear` does not return with
"no deferred or background follow-up step" — it schedules a zero-delay
`setTimeout` verification task (index.ts lines 407-425) before notifying
listeners.  Concretely, clearing a store holding `{a: 1}` leaves one
scheduled deferred task. -/
theorem claim_C1_counterexample :
    (clearOp none true true ⟨[], []⟩
        ⟨FileState.stored (JVal.obj [("a", JVal.num 1)]),
         JVal.obj [("a", JVal.num 1)]⟩).deferred ≠ [] := by
  decide

/-- Claim C1, amended: when its write succeeds, `clear` completes the disk
write and the cache update synchronously before returning, so a `get`,
`has` or `store` read performed immediately afterwards observes an empty
document; however `clear` additionally schedules exactly one deferred
zero-delay verification task, so the "no deferred or background follow-up
step" part of the original claim does not hold. -/
theorem claim_C1_amended (defaults : Option JVal) (wokGetter : Bool) (regs : Registries)
    (s : SState) (key : String) (dflt : JVal) (w2 w3 : Bool) :
    (clearOp defaults wokGetter true regs s).state =
      ⟨FileState.stored (JVal.obj []), JVal.obj []⟩ ∧
    (clearOp defaults wokGetter true regs s).deferred = [DeferredTask.clearVerify] ∧
    (getOp key dflt (clearOp defaults wokGetter true regs s).state).val = dflt ∧
    (hasOp defaults w2 key (clearOp defaults wokGetter true regs s).state).1 = false ∧
    (storeGetter defaults w3 (clearOp defaults wokGetter true regs s).state).val =
      JVal.obj [] := by
  have hnorm : (JVal.obj []).normalize = JVal.obj [] := by decide
  have hstate : (clearOp defaults wokGetter true regs s).state =
      ⟨FileState.stored (JVal.obj []), JVal.obj []⟩ := by
    simp [clearOp, storeSetter, hnorm]
  have h1 : getPropGo (JVal.obj []) (splitDot key) dflt = dflt :=
    getPropGo_emptyObj _ dflt (splitDot_ne_nil key)
  have h2 : getPropGo (JVal.obj []) (splitDot key) JVal.undef = JVal.undef :=
    getPropGo_emptyObj _ JVal.undef (splitDot_ne_nil key)
  refine ⟨hstate, by simp [clearOp], ?_, ?_, ?_⟩
  · rw [hstate]
    simp [getOp, ownFields, readParse, getProperty, h1, h2]
  · rw [hstate]
    simp [hasOp, storeGetter, readParse, hasProperty_emptyObj]
  · rw [hstate]
    simp [storeGetter, readParse]

/-! ## Claim C2 -/

/-- Claim C2 as frozen is false on the code.  With the store file holding
`{a: 1}`, a `set("b", 2)` whose write fails (a) raises nothing to the
caller — the catch in `set` only logs — and (b) leaves the in-memory cache
advanced to `{a: 1, b: 2}` while the file still holds `{a: 1}`: the cache
is advanced past the failed write and diverges from disk. -/
theorem claim_C2_counterexample :
    (setKeyOp none true false ⟨[], []⟩ "b" (JVal.num 2)
        ⟨FileState.stored (JVal.obj [("a", JVal.num 1)]),
         JVal.obj [("a", JVal.num 1)]⟩).threw = false ∧
    (setKeyOp none true false ⟨[], []⟩ "b" (JVal.num 2)
        ⟨FileState.stored (JVal.obj [("a", JVal.num 1)]),
         JVal.obj [("a", JVal.num 1)]⟩).state.cache =
      JVal.obj [("a", JVal.num 1), ("b", JVal.num 2)] ∧
    (setKeyOp none true false ⟨[], []⟩ "b" (JVal.num 2)
        ⟨FileState.stored (JVal.obj [("a", JVal.num 1)]),
         JVal.obj [("a", JVal.num 1)]⟩).state.file =
      FileState.stored (JVal.obj [("a", JVal.num 1)]) := by
  decide

/-- Claim C2, amended: a write failure in a mutating operation is caught
and swallowed, never propagated to the caller.  In `set` the in-memory
cache is updated before the write, so after a failed write the cache holds
the updated document while the file still holds the pre-mutation one; in
`delete` and `clear`, which persist through the store setter, the failed
write leaves both the file and the cache at the pre-mutation document. -/
theorem claim_C2_amended (defaults : Option JVal) (regs : Registries) (key : String)
    (v : JVal) (s : SState) (fs : List (String × JVal))
    (hfile : s.file = FileState.stored (JVal.obj fs))
    (hA : ∀ l ∈ regs.anyListeners, l.throws = false)
    (hK : ∀ p ∈ regs.keyListeners, ∀ l ∈ p.2, l.throws = false) :
    ((setKeyOp defaults true false regs key v s).threw = false ∧
     (setKeyOp defaults true false regs key v s).state.cache =
       (setKeyOp defaults true false regs key v s).updated ∧
     (setKeyOp defaults true false regs key v s).state.file = s.file) ∧
    ((deleteOp defaults true false regs key s).threw = false ∧
     (deleteOp defaults true false regs key s).state = ⟨s.file, JVal.obj fs⟩) ∧
    ((clearOp defaults true false regs s).threw = false ∧
     (clearOp defaults true false regs s).state = ⟨s.file, JVal.obj fs⟩) := by
  have hparse : readParse s.file = some (JVal.obj fs) := by rw [hfile]; rfl
  have hthrew : ∀ old cache file, (handlePossibleChange regs old cache file).threw = false := by
    intro old cache file
    rw [handle_no_throw regs old cache file hA hK]
  refine ⟨⟨?_, ?_, ?_⟩, ⟨?_, ?_⟩, ⟨?_, ?_⟩⟩
  · simp [setKeyOp, storeGetter, hparse, hthrew]
  · simp [setKeyOp, storeGetter, hparse]
  · simp [setKeyOp, storeGetter, hparse]
  · rw [deleteOp]
    simp only [storeGetter, hparse]
    by_cases hd : hasProperty ((JVal.obj fs).normalize) key
    · simp [hd, storeSetter, hthrew]
    · simp [hd]
  · rw [deleteOp]
    simp only [storeGetter, hparse]
    by_cases hd : hasProperty ((JVal.obj fs).normalize) key
    · simp [hd, storeSetter, hfile]
    · simp [hd, hfile]
  · simp [clearOp, storeGetter, hparse, readParse, storeSetter, hthrew]
  · simp [clearOp, storeGetter, hparse, readParse, storeSetter, hfile]

/-- Witness for the amended claim C2 at a concrete store and registry. -/
theorem claim_C2_amended_witness :
    (setKeyOp none true false ⟨[], [("foo", [⟨false⟩])]⟩ "b" (JVal.num 2)
        ⟨FileState.stored (JVal.obj [("a", JVal.num 1)]),
         JVal.obj [("a", JVal.num 1)]⟩).threw = false ∧
    (deleteOp none true false ⟨[], [("foo", [⟨false⟩])]⟩ "a"
        ⟨FileState.stored (JVal.obj [("a", JVal.num 1)]),
         JVal.obj [("a", JVal.num 1)]⟩).state =
      ⟨FileState.stored (JVal.obj [("a", JVal.num 1)]), JVal.obj [("a", JVal.num 1)]⟩ := by
  have h := claim_C2_amended none ⟨[], [("foo", [⟨false⟩])]⟩ "a" (JVal.num 2)
    ⟨FileState.stored (JVal.obj [("a", JVal.num 1)]), JVal.obj [("a", JVal.num 1)]⟩
    [("a", JVal.num 1)] rfl (by decide) (by decide)
  have h2 := claim_C2_amended none ⟨[], [("foo", [⟨false⟩])]⟩ "b" (JVal.num 2)
    ⟨FileState.stored (JVal.obj [("a", JVal.num 1)]), JVal.obj [("a", JVal.num 1)]⟩
    [("a", JVal.num 1)] rfl (by decide) (by decide)
  exact ⟨h2.1.1, h.2.1.2⟩

/-! ## Claim C8 -/

/-- Claim C8 as frozen is false on the code: the dispatch loops in
`_handlePossibleChange` have no try/catch, so a throwing callback prevents
every later callback from running.  Concretely, with two wildcard listeners
of which the first throws, clearing a store holding `{a: 1}` invokes only
the first listener (one event) and the exception escapes to the caller;
the second registered wildcard callback is never attempted. -/
theorem claim_C8_counterexample :
    (clearOp none true true ⟨[⟨true⟩, ⟨false⟩], []⟩
        ⟨FileState.stored (JVal.obj [("a", JVal.num 1)]),
         JVal.obj [("a", JVal.num 1)]⟩).events =
      [Event.anyChange 0 (JVal.obj []) (JVal.obj [("a", JVal.num 1)])] ∧
    (clearOp none true true ⟨[⟨true⟩, ⟨false⟩], []⟩
        ⟨FileState.stored (JVal.obj [("a", JVal.num 1)]),
         JVal.obj [("a", JVal.num 1)]⟩).threw = true := by
  decide

theorem map_range_succ_shift (mk : Nat → Event) (n start : Nat) :
    (List.range (n + 1)).map (fun i => mk (start + i)) =
      mk start :: ((List.range n).map fun i => mk (start + 1 + i)) := by
  rw [List.range_succ_eq_map, List.map_cons, List.map_map]
  congr 1
  refine List.map_congr_left fun a _ => ?_
  simp only [Function.comp_apply]
  congr 1
  omega

theorem runListeners_throw (pre post : List Listener) (mk : Nat → Event) (start : Nat)
    (hpre : ∀ l ∈ pre, l.throws = false) :
    runListeners (pre ++ ⟨true⟩ :: post) mk start =
      ((List.range (pre.length + 1)).map fun i => mk (start + i), true) := by
  induction pre generalizing start with
  | nil =>
      rw [List.nil_append, runListeners, map_range_succ_shift]
      simp
  | cons l rest ih =>
      have hl : l.throws = false := hpre l (List.mem_cons_self _ _)
      rw [List.cons_append, runListeners,
        ih (start + 1) fun x hx => hpre x (List.mem_cons_of_mem _ hx)]
      simp only [hl, Bool.false_eq_true, if_false, List.length_cons, Prod.mk.injEq, and_true]
      rw [map_range_succ_shift mk rest.length (start + 1),
        map_range_succ_shift mk (rest.length + 1) start,
        map_range_succ_shift mk rest.length (start + 1)]

/-- Claim C8, amended: a throwing callback aborts dispatch.  If a wildcard
listener that throws is registered after some non-throwing listeners and
the whole-document comparison fires the wildcard registry, then exactly the
listeners up to and including the thrower are invoked, every later wildcard
listener and the entire keyed registry are skipped, and the exception
escapes to the caller of the mutating operation. -/
theorem claim_C8_amended (pre post : List Listener) (kls : List (String × List Listener))
    (oldStore cache : JVal) (file : FileState)
    (hpre : ∀ l ∈ pre, l.throws = false)
    (hne : isDeepStrictEqual oldStore (computeFresh cache file) = false) :
    (handlePossibleChange ⟨pre ++ ⟨true⟩ :: post, kls⟩ oldStore cache file).events =
      ((List.range (pre.length + 1)).map fun i =>
        Event.anyChange i (computeFresh cache file) oldStore) ∧
    (handlePossibleChange ⟨pre ++ ⟨true⟩ :: post, kls⟩ oldStore cache file).threw = true := by
  rw [handlePossibleChange]
  simp only [hne, Bool.false_eq_true, if_false]
  rw [runListeners_throw pre post _ 0 hpre]
  simp

/-- Witness for the amended claim C8: one clean listener before the
thrower, one listener after it, one keyed listener; only the first two
run. -/
theorem claim_C8_amended_witness :
    (handlePossibleChange ⟨[⟨false⟩] ++ ⟨true⟩ :: [⟨false⟩], [("a", [⟨false⟩])]⟩
        (JVal.obj [("a", JVal.num 1)]) (JVal.obj []) (FileState.stored (JVal.obj []))).events =
      [Event.anyChange 0 (JVal.obj []) (JVal.obj [("a", JVal.num 1)]),
       Event.anyChange 1 (JVal.obj []) (JVal.obj [("a", JVal.num 1)])] ∧
    (handlePossibleChange ⟨[⟨false⟩] ++ ⟨true⟩ :: [⟨false⟩], [("a", [⟨false⟩])]⟩
        (JVal.obj [("a", JVal.num 1)]) (JVal.obj []) (FileState.stored (JVal.obj []))).threw =
      true := by
  have h := claim_C8_amended [⟨false⟩] [⟨false⟩] [("a", [⟨false⟩])]
    (JVal.obj [("a", JVal.num 1)]) (JVal.obj []) (FileState.stored (JVal.obj []))
    (by decide) (by decide)
  exact ⟨by rw [h.1]; decide, h.2⟩

/-! ## Claim C9 -/

/-- Claim C9: the "new" snapshot handed to change callbacks is the
in-memory cache shallow-merged with the document parsed from disk, disk
values winning per top-level key: a key the disk document holds takes its
disk value, and a key present only in the cache keeps its cache value, so
a cached top-level key absent from the on-disk file still appears in the
snapshot.  When the disk read fails, the snapshot is the shallow copy of
the cache alone; and the snapshot dispatch hands to callbacks is exactly
this `computeFresh` document. -/
theorem claim_C9_fresh_merge (cache oldStore : JVal) (ds : List (String × JVal))
    (regs : Registries) (file : FileState)
    (hn : (ds.map Prod.fst).Nodup) :
    (∀ w v0, lookupF ds w = some v0 →
      lookupF (computeFresh cache (FileState.stored (JVal.obj ds))).ownFields w = some v0) ∧
    (∀ w, lookupF ds w = none →
      lookupF (computeFresh cache (FileState.stored (JVal.obj ds))).ownFields w =
        lookupF cache.ownFields w) ∧
    (readParse file = none → computeFresh cache file = JVal.obj cache.ownFields) ∧
    (handlePossibleChange regs oldStore cache file).fresh = computeFresh cache file := by
  refine ⟨?_, ?_, ?_, ?_⟩
  · intro w v0 hw
    simp only [computeFresh, readParse, ownFields]
    exact lookupF_assignAll_some _ ds w v0 hn hw
  · intro w hw
    simp only [computeFresh, readParse, ownFields]
    exact lookupF_assignAll_none _ ds w hw
  · intro hf
    simp [computeFresh, hf]
  · rw [handlePossibleChange]
    by_cases hd : isDeepStrictEqual oldStore (computeFresh cache file)
    · simp only [hd, if_true]
    · simp only [hd, Bool.false_eq_true, if_false]
      by_cases ht : (runListeners regs.anyListeners
          (fun i => Event.anyChange i (computeFresh cache file) oldStore) 0).2
      · simp only [ht, if_true]
      · simp only [ht, Bool.false_eq_true, if_false]

/-- Witness for claim C9: cache key `mem` absent from disk survives into
the snapshot, disk value for `a` wins over the cached one. -/
theorem claim_C9_fresh_merge_witness :
    lookupF (computeFresh (JVal.obj [("mem", JVal.num 7), ("a", JVal.num 1)])
        (FileState.stored (JVal.obj [("a", JVal.num 2)]))).ownFields "mem" =
      some (JVal.num 7) ∧
    lookupF (computeFresh (JVal.obj [("mem", JVal.num 7), ("a", JVal.num 1)])
        (FileState.stored (JVal.obj [("a", JVal.num 2)]))).ownFields "a" =
      some (JVal.num 2) := by
  have h := claim_C9_fresh_merge (JVal.obj [("mem", JVal.num 7), ("a", JVal.num 1)])
    (JVal.obj []) [("a", JVal.num 2)] ⟨[], []⟩ FileState.missing (by decide)
  refine ⟨?_, h.1 "a" (JVal.num 2) (by decide)⟩
  have h2 := h.2.1 "mem" (by decide)
  rw [h2]
  decide

/-! ## Claim C10 -/

/-- Claim C10: the public `get` consults the in-memory cache first.  When
the cached document has at least one key and holds a defined value at the
key, that cached value is returned, with no disk read, no state change and
no default substitution; otherwise disk is consulted: a parse yields
`getProperty` of the disk document with the supplied default (caching the
disk document), and a failed read yields the default with the cache
untouched. -/
theorem claim_C10_get_cache_first (key : String) (dflt : JVal) (s : SState) :
    (s.cache.ownFields ≠ [] → getProperty s.cache key ≠ JVal.undef →
      getOp key dflt s = ⟨getProperty s.cache key, s, false⟩) ∧
    ((s.cache.ownFields = [] ∨ getProperty s.cache key = JVal.undef) →
      ∀ dd, readParse s.file = some dd →
        getOp key dflt s = ⟨getProperty dd key dflt, ⟨s.file, dd⟩, true⟩) ∧
    ((s.cache.ownFields = [] ∨ getProperty s.cache key = JVal.undef) →
      readParse s.file = none → getOp key dflt s = ⟨dflt, s, true⟩) := by
  refine ⟨?_, ?_, ?_⟩
  · intro hne hv
    have hlen : s.cache.ownFields.length > 0 := by
      cases h : s.cache.ownFields with
      | nil => exact absurd h hne
      | cons a l => simp [h]
    have hv' : getPropGo s.cache (splitDot key) JVal.undef ≠ JVal.undef := hv
    simp [getOp, hlen, getProperty, hv']
  · intro hmiss dd hdd
    rcases hmiss with hmiss | hmiss
    · simp [getOp, hmiss, hdd, getProperty]
    · have hm' : getPropGo s.cache (splitDot key) JVal.undef = JVal.undef := hmiss
      by_cases hlen : s.cache.ownFields.length > 0 <;>
        simp [getOp, hlen, getProperty, hm', hdd]
  · intro hmiss hdd
    rcases hmiss with hmiss | hmiss
    · simp [getOp, hmiss, hdd, getProperty]
    · have hm' : getPropGo s.cache (splitDot key) JVal.undef = JVal.undef := hmiss
      by_cases hlen : s.cache.ownFields.length > 0 <;>
        simp [getOp, hlen, getProperty, hm', hdd]

/-- Witness for claim C10: a cache hit is served with no disk read and the
default ignored even though the file is corrupt; a cache miss on a corrupt
file yields the default. -/
theorem claim_C10_get_cache_first_witness :
    getOp "a" (JVal.str "D") ⟨FileState.corrupt, JVal.obj [("a", JVal.num 1)]⟩ =
      ⟨JVal.num 1, ⟨FileState.corrupt, JVal.obj [("a", JVal.num 1)]⟩, false⟩ ∧
    getOp "b" (JVal.str "D") ⟨FileState.corrupt, JVal.obj [("a", JVal.num 1)]⟩ =
      ⟨JVal.str "D", ⟨FileState.corrupt, JVal.obj [("a", JVal.num 1)]⟩, true⟩ := by
  have h := claim_C10_get_cache_first "a" (JVal.str "D")
    ⟨FileState.corrupt, JVal.obj [("a", JVal.num 1)]⟩
  have h2 := claim_C10_get_cache_first "b" (JVal.str "D")
    ⟨FileState.corrupt, JVal.obj [("a", JVal.num 1)]⟩
  refine ⟨?_, h2.2.2 (by decide) rfl⟩
  have := h.1 (by decide) (by decide)
  rw [this]
  decide

/-! ## Claim C6 -/

theorem hasOwn_isNonNullObject (cur : JVal) (p : String) (h : cur.hasOwn p = true) :
    cur.isNonNullObject = true := by
  cases cur <;> simp_all [hasOwn, isNonNullObject]

theorem ownPath_cons (cur : JVal) (p : String) (rest : List String) :
    ownPath cur (p :: rest) = (cur.hasOwn p && ownPath (cur.getOwn p) rest) := rfl

theorem intsPresent_cons2 (cur : JVal) (p q : String) (rest2 : List String) :
    intsPresent cur (p :: q :: rest2) =
      (cur.hasOwn p && intsPresent (cur.getOwn p) (q :: rest2)) := rfl

theorem removeSpec_cons2 (cur : JVal) (p q : String) (rest2 : List String) :
    removeSpec cur (p :: q :: rest2) =
      cur.setOwn p (removeSpec (cur.getOwn p) (q :: rest2)) := rfl

theorem delGo_cons2 (cur : JVal) (p q : String) (rest2 : List String) :
    delGo cur (p :: q :: rest2) =
      if cur.getOwn p = JVal.undef || cur.getOwn p = JVal.null ||
          !(cur.getOwn p).isNonNullObject then (cur, false)
      else (cur.setOwn p (delGo (cur.getOwn p) (q :: rest2)).1,
        (delGo (cur.getOwn p) (q :: rest2)).2) := rfl

theorem delGo_ownPath (parts : List String) (cur : JVal) (hne : parts ≠ [])
    (h : ownPath cur parts = true) : delGo cur parts = (removeSpec cur parts, true) := by
  induction parts generalizing cur with
  | nil => exact absurd rfl hne
  | cons p rest ih =>
      cases rest with
      | nil =>
          have hp : cur.hasOwn p = true := by simpa [ownPath] using h
          simp [delGo, removeSpec, hp]
      | cons q rest2 =>
          rw [ownPath_cons, Bool.and_eq_true] at h
          obtain ⟨hp, hrest⟩ := h
          have hq : (cur.getOwn p).hasOwn q = true := by
            rw [ownPath_cons, Bool.and_eq_true] at hrest
            exact hrest.1
          have hobj : (cur.getOwn p).isNonNullObject = true := hasOwn_isNonNullObject _ q hq
          have hnn : ¬ (cur.getOwn p = JVal.undef) := by
            intro he
            rw [he] at hobj
            simp [isNonNullObject] at hobj
          have hnl : ¬ (cur.getOwn p = JVal.null) := by
            intro he
            rw [he] at hobj
            simp [isNonNullObject] at hobj
          rw [delGo_cons2, removeSpec_cons2, ih (cur.getOwn p) (by simp) hrest]
          simp [hnn, hnl, hobj]

theorem delGo_intsMissing (parts : List String) (cur : JVal)
    (h : intsPresent cur parts = false) : delGo cur parts = (cur, false) := by
  induction parts generalizing cur with
  | nil => simp [intsPresent] at h
  | cons p rest ih =>
      cases rest with
      | nil => simp [intsPresent] at h
      | cons q rest2 =>
          rw [intsPresent_cons2] at h
          by_cases hp : cur.hasOwn p = true
          · have hrest : intsPresent (cur.getOwn p) (q :: rest2) = false := by
              simpa [hp] using h
            rw [delGo_cons2]
            by_cases hbad : (cur.getOwn p = JVal.undef || cur.getOwn p = JVal.null ||
                !(cur.getOwn p).isNonNullObject) = true
            · rw [if_pos hbad]
            · rw [if_neg (by simpa using hbad), ih (cur.getOwn p) hrest]
              simp [setOwn_getOwn_self cur p hp]
          · have hp' : cur.hasOwn p = false := by
              cases hx : cur.hasOwn p
              · rfl
              · exact absurd hx hp
            have hchild : cur.getOwn p = JVal.undef := getOwn_of_not_hasOwn cur p hp'
            rw [delGo_cons2]
            simp [hchild]

/-- Claim C6: the dot-path delete returns the pair `(newDoc, wasPresent)`:
when every segment of the path exists it removes exactly the leaf field
(the document equals `removeSpec`, the removal written from the spec's
words) and reports `true`; when an intermediate segment is missing it
returns the document unmodified with `false`.  At the store level,
`delete(key)` returns `true` exactly when `hasProperty` holds of the
(cloned) document the getter produced, and — with listeners that do not
throw — the call never throws, whether or not its write succeeds. -/
theorem claim_C6_delete (d : JVal) (path : String) (defaults : Option JVal)
    (wg ww : Bool) (regs : Registries) (key : String) (s : SState)
    (hnd : normalize d = d)
    (hA : ∀ l ∈ regs.anyListeners, l.throws = false)
    (hK : ∀ p ∈ regs.keyListeners, ∀ l ∈ p.2, l.throws = false) :
    (ownPath d (splitDot path) = true →
      deleteProperty d path = (removeSpec d (splitDot path), true)) ∧
    (intsPresent d (splitDot path) = false → deleteProperty d path = (d, false)) ∧
    (deleteOp defaults wg ww regs key s).result =
      hasProperty (normalize (storeGetter defaults wg s).val) key ∧
    (deleteOp defaults wg ww regs key s).threw = false := by
  refine ⟨?_, ?_, ?_, ?_⟩
  · intro hown
    rcases hsp : splitDot path with _ | ⟨p, rest⟩
    · exact absurd hsp (splitDot_ne_nil path)
    · cases rest with
      | nil =>
          rw [hsp] at hown
          have hp : d.hasOwn p = true := by simpa [ownPath] using hown
          simp [deleteProperty, hsp, hnd, removeSpec, hp]
      | cons q rest2 =>
          rw [hsp] at hown
          simp only [deleteProperty, hsp, hnd]
          exact delGo_ownPath _ d (by simp) hown
  · intro hints
    rcases hsp : splitDot path with _ | ⟨p, rest⟩
    · exact absurd hsp (splitDot_ne_nil path)
    · cases rest with
      | nil =>
          rw [hsp] at hints
          simp [intsPresent] at hints
      | cons q rest2 =>
          rw [hsp] at hints
          simp only [deleteProperty, hsp, hnd]
          exact delGo_intsMissing _ d hints
  · rw [deleteOp]
    by_cases hd : hasProperty ((storeGetter defaults wg s).val.normalize) key
    · simp [hd]
    · simp [hd]
  · rw [deleteOp]
    by_cases hd : hasProperty ((storeGetter defaults wg s).val.normalize) key
    · simp only [hd, if_true]
      rw [handle_no_throw _ _ _ _ hA hK]
    · simp [hd]

/-- Witness for claim C6, the P5 scenario: on `{a: {b: "c"}}`, deleting
`"a.b"` yields `({a: {}}, true)` while `"a.x.y"` is unchanged with
`false`; the store-level delete of the present key `"a"` answers `true`
and does not throw. -/
theorem claim_C6_delete_witness :
    deleteProperty (JVal.obj [("a", JVal.obj [("b", JVal.str "c")])]) "a.b" =
      (JVal.obj [("a", JVal.obj [])], true) ∧
    deleteProperty (JVal.obj [("a", JVal.obj [("b", JVal.str "c")])]) "a.x.y" =
      (JVal.obj [("a", JVal.obj [("b", JVal.str "c")])], false) ∧
    (deleteOp none true true ⟨[], []⟩ "a"
        ⟨FileState.stored (JVal.obj [("a", JVal.obj [("b", JVal.str "c")])]),
         JVal.obj []⟩).result = true ∧
    (deleteOp none true true ⟨[], []⟩ "a"
        ⟨FileState.stored (JVal.obj [("a", JVal.obj [("b", JVal.str "c")])]),
         JVal.obj []⟩).threw = false := by
  have h := claim_C6_delete (JVal.obj [("a", JVal.obj [("b", JVal.str "c")])]) "a.b"
    none true true ⟨[], []⟩ "a"
    ⟨FileState.stored (JVal.obj [("a", JVal.obj [("b", JVal.str "c")])]), JVal.obj []⟩
    (by decide) (by decide) (by decide)
  have h2 := claim_C6_delete (JVal.obj [("a", JVal.obj [("b", JVal.str "c")])]) "a.x.y"
    none true true ⟨[], []⟩ "a"
    ⟨FileState.stored (JVal.obj [("a", JVal.obj [("b", JVal.str "c")])]), JVal.obj []⟩
    (by decide) (by decide) (by decide)
  refine ⟨?_, h2.2.1 (by decide), ?_, h.2.2.2⟩
  · rw [h.1 (by decide)]
    decide
  · rw [h.2.2.1]
    decide

/-! ## Claim C5 -/

/-- Claim C5: store construction with a non-empty defaults object against
an existing on-disk document merges per top-level field: every field the
disk document holds keeps its disk value in the resulting cache, and every
defaults field absent from disk is added with its (JSON-round-tripped)
default value.  With an empty defaults object the disk document is used
whole, which satisfies the same per-field description vacuously. -/
theorem claim_C5_defaults_merge (dfs ds : List (String × JVal)) (wok : Bool)
    (hdfs : dfs ≠ [])
    (hn : (ds.map Prod.fst).Nodup) :
    (∀ k v, lookupF ds k = some v →
      lookupF (initStore (some (JVal.obj dfs)) wok
        (FileState.stored (JVal.obj ds))).cache.ownFields k = some v) ∧
    (∀ k, lookupF ds k = none →
      lookupF (initStore (some (JVal.obj dfs)) wok
        (FileState.stored (JVal.obj ds))).cache.ownFields k =
        lookupF (normFields dfs) k) ∧
    (∀ d0 : JVal, initStore (some (JVal.obj [])) wok (FileState.stored d0) =
      ⟨FileState.stored d0, d0⟩) := by
  have hlen : dfs.length > 0 := by
    cases dfs with
    | nil => exact absurd rfl hdfs
    | cons a l => simp
  have hcache : (initStore (some (JVal.obj dfs)) wok
      (FileState.stored (JVal.obj ds))).cache =
      JVal.obj (assignAll (normFields dfs) ds) := by
    have hno : (JVal.obj dfs).normalize = JVal.obj (normFields dfs) := rfl
    simp [initStore, ownFields, hlen, hno, isNonNullObject, readParse]
  refine ⟨?_, ?_, ?_⟩
  · intro k v hkv
    rw [hcache]
    exact lookupF_assignAll_some _ ds k v hn hkv
  · intro k hk
    rw [hcache]
    exact lookupF_assignAll_none _ ds k hk
  · intro d0
    simp [initStore, ownFields]

/-- Witness for claim C5, the P3 scenario run end to end: constructing
with defaults `{version: 1}` against a missing file, then reconstructing
with defaults `{version: 1, extra: "x"}` against the file the first
construction wrote, yields `get("version") = 1` (disk wins) and
`get("extra") = "x"` (new default field added). -/
theorem claim_C5_defaults_merge_witness :
    lookupF (initStore (some (JVal.obj [("version", JVal.num 1), ("extra", JVal.str "x")]))
        true (initStore (some (JVal.obj [("version", JVal.num 1)]))
          true FileState.missing).file).cache.ownFields "version" = some (JVal.num 1) ∧
    lookupF (initStore (some (JVal.obj [("version", JVal.num 1), ("extra", JVal.str "x")]))
        true (initStore (some (JVal.obj [("version", JVal.num 1)]))
          true FileState.missing).file).cache.ownFields "extra" = some (JVal.str "x") ∧
    (getOp "version" JVal.undef (initStore
        (some (JVal.obj [("version", JVal.num 1), ("extra", JVal.str "x")])) true
        (initStore (some (JVal.obj [("version", JVal.num 1)])) true
          FileState.missing).file)).val = JVal.num 1 ∧
    (getOp "extra" JVal.undef (initStore
        (some (JVal.obj [("version", JVal.num 1), ("extra", JVal.str "x")])) true
        (initStore (some (JVal.obj [("version", JVal.num 1)])) true
          FileState.missing).file)).val = JVal.str "x" := by
  have hfile : (initStore (some (JVal.obj [("version", JVal.num 1)])) true
      FileState.missing).file = FileState.stored (JVal.obj [("version", JVal.num 1)]) := by
    decide
  have h := claim_C5_defaults_merge [("version", JVal.num 1), ("extra", JVal.str "x")]
    [("version", JVal.num 1)] true (by decide) (by decide)
  rw [hfile]
  refine ⟨h.1 "version" (JVal.num 1) (by decide), ?_, by decide, by decide⟩
  have h2 := h.2.1 "extra" (by decide)
  rw [h2]
  decide


/-! ## Claim C4 -/

theorem mem_eraseKey (fs : List (String × JVal)) (q : String) (x : String × JVal)
    (h : x ∈ eraseKey fs q) : x ∈ fs := by
  induction fs with
  | nil => simp [eraseKey] at h
  | cons p rest ih =>
      obtain ⟨k, v⟩ := p
      by_cases hk : k = q
      · simp only [eraseKey, hk, if_pos rfl] at h
        exact List.mem_cons_of_mem _ h
      · simp only [eraseKey, hk, if_false] at h
        rcases List.mem_cons.mp h with h1 | h2
        · exact h1 ▸ List.mem_cons_self _ _
        · exact List.mem_cons_of_mem _ (ih h2)

theorem mem_assignKey (fs : List (String × JVal)) (k : String) (v : JVal) (x : String × JVal)
    (h : x ∈ assignKey fs k v) : x ∈ fs ∨ x = (k, v) := by
  induction fs with
  | nil =>
      simp [assignKey] at h
      exact Or.inr h
  | cons p rest ih =>
      obtain ⟨k1, w⟩ := p
      by_cases hk : k1 = k
      · simp only [assignKey, hk, if_pos rfl] at h
        rcases List.mem_cons.mp h with h1 | h2
        · exact Or.inr (hk ▸ h1)
        · exact Or.inl (List.mem_cons_of_mem _ h2)
      · simp only [assignKey, hk, if_false] at h
        rcases List.mem_cons.mp h with h1 | h2
        · exact Or.inl (h1 ▸ List.mem_cons_self _ _)
        · rcases ih h2 with h3 | h3
          · exact Or.inl (List.mem_cons_of_mem _ h3)
          · exact Or.inr h3

theorem keysOf_eraseKey_sublist (fs : List (String × JVal)) (q : String) :
    ((eraseKey fs q).map Prod.fst).Sublist (fs.map Prod.fst) := by
  induction fs with
  | nil => simp [eraseKey]
  | cons p rest ih =>
      obtain ⟨k, v⟩ := p
      by_cases hk : k = q
      · simp only [eraseKey, hk, if_pos rfl, List.map_cons]
        exact (List.sublist_cons_self _ _)
      · simp only [eraseKey, hk, if_false, List.map_cons]
        exact List.Sublist.cons₂ _ ih

theorem normFields_self_mem (fs : List (String × JVal)) (h : normFields fs = fs) :
    ∀ p ∈ fs, p.2 ≠ JVal.undef ∧ normalize p.2 = p.2 := by
  induction fs with
  | nil => simp
  | cons p rest ih =>
      obtain ⟨k, v⟩ := p
      obtain ⟨hv, hnv, hrest⟩ := normFields_cons_self k v rest h
      intro x hx
      rcases List.mem_cons.mp hx with hx | hx
      · subst hx
        exact ⟨hv, hnv⟩
      · exact ih hrest x hx

theorem normFields_map_of_no_undef (fs : List (String × JVal))
    (h : ∀ p ∈ fs, p.2 ≠ JVal.undef) :
    normFields fs = fs.map fun p : String × JVal => (p.1, JVal.normalize p.2) := by
  induction fs with
  | nil => rfl
  | cons p rest ih =>
      obtain ⟨k, v⟩ := p
      have hv : v ≠ JVal.undef := h (k, v) (List.mem_cons_self _ _)
      have heq : normFields ((k, v) :: rest) = (k, normalize v) :: normFields rest := by
        cases v <;> first | exact absurd rfl hv | simp [normFields]
      rw [heq, ih fun x hx => h x (List.mem_cons_of_mem _ hx)]
      rfl

theorem assignAll_cons_not_mem (k : String) (v : JVal) (brest upd : List (String × JVal))
    (hk : k ∉ upd.map Prod.fst) :
    assignAll ((k, v) :: brest) upd = (k, v) :: assignAll brest upd := by
  induction upd generalizing brest with
  | nil => rfl
  | cons p rest ih =>
      obtain ⟨k2, w⟩ := p
      simp only [List.map_cons, List.mem_cons, not_or] at hk
      have hne : ¬ k = k2 := fun hh => hk.1 hh
      rw [assignAll, assignAll]
      rw [show assignKey ((k, v) :: brest) k2 w = (k, v) :: assignKey brest k2 w by
        simp [assignKey, hne]]
      exact ih (assignKey brest k2 w) hk.2

theorem assignAll_of_keys_eq (base upd : List (String × JVal))
    (hk : base.map Prod.fst = upd.map Prod.fst)
    (hn : (upd.map Prod.fst).Nodup) : assignAll base upd = upd := by
  induction upd generalizing base with
  | nil =>
      simp only [List.map_nil] at hk
      have : base = [] := List.map_eq_nil_iff.mp hk
      simp [this, assignAll]
  | cons p rest ih =>
      obtain ⟨k, v⟩ := p
      cases base with
      | nil => simp at hk
      | cons b brest =>
          obtain ⟨k0, b0⟩ := b
          simp only [List.map_cons, List.cons.injEq] at hk
          obtain ⟨hk0, hkrest⟩ := hk
          subst hk0
          simp only [List.map_cons, List.nodup_cons] at hn
          rw [assignAll]
          rw [show assignKey ((k0, b0) :: brest) k0 v = (k0, v) :: brest by simp [assignKey]]
          rw [assignAll_cons_not_mem k0 v brest rest hn.1, ih brest hkrest hn.2]

theorem computeFresh_self_normalized (g1 : List (String × JVal))
    (hu : ∀ p ∈ g1, p.2 ≠ JVal.undef) (hn : (g1.map Prod.fst).Nodup) :
    computeFresh (JVal.obj g1) (FileState.stored (normalize (JVal.obj g1))) =
      normalize (JVal.obj g1) := by
  have hmap := normFields_map_of_no_undef g1 hu
  have hno : normalize (JVal.obj g1) = JVal.obj (normFields g1) := rfl
  have hkeys : g1.map Prod.fst = (normFields g1).map Prod.fst := by
    rw [hmap, List.map_map]
    exact (List.map_congr_left fun p _ => rfl).symm
  have hnn : ((normFields g1).map Prod.fst).Nodup := hkeys ▸ hn
  rw [hno]
  simp only [computeFresh, readParse, ownFields]
  rw [assignAll_of_keys_eq g1 (normFields g1) hkeys hnn]

theorem delGo_isNonNullObject (cur : JVal) (parts : List String)
    (h : cur.isNonNullObject = true) : ((delGo cur parts).1).isNonNullObject = true := by
  match parts with
  | [] => exact h
  | [p] =>
      rw [delGo]
      by_cases hp : cur.hasOwn p = true
      · rw [if_pos hp]
        cases cur with
        | obj fs => simp [eraseOwn, isNonNullObject]
        | arr xs =>
            simp only [eraseOwn]
            rcases hc : canonIdx p with _ | n
            · simpa [isNonNullObject] using h
            · by_cases hn : n < xs.length <;> simp [hn, isNonNullObject]
        | undef => simp [hasOwn] at hp
        | null => simp [hasOwn] at hp
        | bool b => simp [hasOwn] at hp
        | num n => simp [hasOwn] at hp
        | str s => simp [hasOwn] at hp
      · rw [if_neg hp]
        exact h
  | p :: q :: rest =>
      rw [delGo_cons2]
      by_cases hb : (cur.getOwn p = JVal.undef || cur.getOwn p = JVal.null ||
          !(cur.getOwn p).isNonNullObject) = true
      · rw [if_pos hb]
        exact h
      · rw [if_neg hb]
        cases cur with
        | obj fs => simp [setOwn, isNonNullObject]
        | arr xs =>
            simp only [setOwn]
            rcases hc : canonIdx p with _ | n <;> simp [isNonNullObject]
        | undef => simpa [isNonNullObject] using h
        | null => simpa [isNonNullObject] using h
        | bool b => simpa [isNonNullObject] using h
        | num n => simpa [isNonNullObject] using h
        | str s => simpa [isNonNullObject] using h

theorem deleteProperty_obj_wf (fs : List (String × JVal)) (key : String)
    (hnf : normFields fs = fs) (hnd : (fs.map Prod.fst).Nodup) :
    ∃ g1, (deleteProperty (JVal.obj fs) key).1 = JVal.obj g1 ∧
      (∀ p ∈ g1, p.2 ≠ JVal.undef) ∧ (g1.map Prod.fst).Nodup := by
  have hself : normalize (JVal.obj fs) = JVal.obj fs := by
    show JVal.obj (normFields fs) = JVal.obj fs
    rw [hnf]
  have hmemfs : ∀ p ∈ fs, p.2 ≠ JVal.undef := fun p hp => (normFields_self_mem fs hnf p hp).1
  rcases hsp : splitDot key with _ | ⟨p, rest⟩
  · exact absurd hsp (splitDot_ne_nil key)
  · cases rest with
    | nil =>
        refine ⟨eraseKey fs p, ?_, ?_, ?_⟩
        · simp [deleteProperty, hsp, hself, eraseOwn]
        · exact fun x hx => hmemfs x (mem_eraseKey fs p x hx)
        · exact List.Nodup.sublist (keysOf_eraseKey_sublist fs p) hnd
    | cons q rest2 =>
        have hdel : (deleteProperty (JVal.obj fs) key).1 =
            (delGo (JVal.obj fs) (p :: q :: rest2)).1 := by
          simp [deleteProperty, hsp, hself]
        rw [hdel, delGo_cons2]
        by_cases hb : ((JVal.obj fs).getOwn p = JVal.undef ||
            (JVal.obj fs).getOwn p = JVal.null ||
            !((JVal.obj fs).getOwn p).isNonNullObject) = true
        · rw [if_pos hb]
          exact ⟨fs, rfl, hmemfs, hnd⟩
        · rw [if_neg hb]
          have hobj : (((JVal.obj fs).getOwn p).isNonNullObject) = true := by
            cases hx : ((JVal.obj fs).getOwn p).isNonNullObject
            · exact absurd (by simp [hx]) hb
            · rfl
          have hchild : (((delGo ((JVal.obj fs).getOwn p) (q :: rest2)).1)).isNonNullObject
              = true := delGo_isNonNullObject _ _ hobj
          refine ⟨assignKey fs p (delGo ((JVal.obj fs).getOwn p) (q :: rest2)).1, rfl, ?_, ?_⟩
          · intro x hx
            rcases mem_assignKey fs p _ x hx with h1 | h1
            · exact hmemfs x h1
            · rw [h1]
              intro hc
              rw [show ((p, (delGo ((JVal.obj fs).getOwn p) (q :: rest2)).1) :
                String × JVal).2 = (delGo ((JVal.obj fs).getOwn p) (q :: rest2)).1
                from rfl] at hc
              rw [hc] at hchild
              simp [isNonNullObject] at hchild
          · exact nodup_assignKey fs p _ hnd

/-- Claim C4 (invariant I2 over the mutating calls, with P4 as its
witness): on a store whose file holds a well-formed document (no duplicate
keys, JSON-normal), with listeners that do not throw and successful
writes, each mutating call — a top-level `set` with a JSON-normal defined
value, a `delete` of any key, and `clear` — invokes a callback exactly
when its watched value (the whole document for a wildcard callback)
differs by `isDeepStrictEqual` between the pre-mutation snapshot (the disk
document) and the post-mutation snapshot (the document the operation
persisted: the key assigned for `set`, the serialized delete result for
`delete`, the empty document for `clear`): each such key fires all and
only its registered callbacks, once each, in order, with the new and old
values as arguments; in particular no callback fires on a no-op write, and
a `delete` of an absent key fires nothing. -/
theorem claim_C4_notification_iff (defaults : Option JVal) (wg : Bool) (regs : Registries)
    (key : String) (v : JVal) (fs : List (String × JVal)) (s : SState)
    (hfile : s.file = FileState.stored (JVal.obj fs))
    (hnf : normFields fs = fs)
    (hnd : (fs.map Prod.fst).Nodup)
    (hkey : key.data.contains '.' = false)
    (hv : v ≠ JVal.undef) (hnv : normalize v = v)
    (hA : ∀ l ∈ regs.anyListeners, l.throws = false)
    (hK : ∀ p ∈ regs.keyListeners, ∀ l ∈ p.2, l.throws = false)
    (hkn : (regs.keyListeners.map Prod.fst).Nodup) :
    (setKeyOp defaults wg true regs key v s).oldStore = JVal.obj fs ∧
    (setKeyOp defaults wg true regs key v s).updated =
      JVal.obj (JVal.assignKey fs key v) ∧
    (setKeyOp defaults wg true regs key v s).state =
      ⟨FileState.stored (JVal.obj (JVal.assignKey fs key v)),
       JVal.obj (JVal.assignKey fs key v)⟩ ∧
    (setKeyOp defaults wg true regs key v s).threw = false ∧
    (∀ w ls, (w, ls) ∈ regs.keyListeners →
      keyEventsFor (setKeyOp defaults wg true regs key v s).events w =
        (if isDeepStrictEqual (getProperty (JVal.obj fs) w)
            (getProperty (JVal.obj (JVal.assignKey fs key v)) w) then []
         else (List.range ls.length).map fun i =>
           Event.keyChange w i (getProperty (JVal.obj (JVal.assignKey fs key v)) w)
             (getProperty (JVal.obj fs) w))) ∧
    (anyEvents (setKeyOp defaults wg true regs key v s).events =
      (if isDeepStrictEqual (JVal.obj fs) (JVal.obj (JVal.assignKey fs key v)) then []
       else (List.range regs.anyListeners.length).map fun i =>
         Event.anyChange i (JVal.obj (JVal.assignKey fs key v)) (JVal.obj fs))) ∧
    (hasProperty (JVal.obj fs) key = true →
      (deleteOp defaults wg true regs key s).result = true ∧
      (deleteOp defaults wg true regs key s).threw = false ∧
      (deleteOp defaults wg true regs key s).state =
        ⟨FileState.stored (normalize (deleteProperty (JVal.obj fs) key).1),
         (deleteProperty (JVal.obj fs) key).1⟩ ∧
      (∀ w ls, (w, ls) ∈ regs.keyListeners →
        keyEventsFor (deleteOp defaults wg true regs key s).events w =
          (if isDeepStrictEqual (getProperty (JVal.obj fs) w)
              (getProperty (normalize (deleteProperty (JVal.obj fs) key).1) w) then []
           else (List.range ls.length).map fun i =>
             Event.keyChange w i
               (getProperty (normalize (deleteProperty (JVal.obj fs) key).1) w)
               (getProperty (JVal.obj fs) w))) ∧
      (anyEvents (deleteOp defaults wg true regs key s).events =
        (if isDeepStrictEqual (JVal.obj fs)
            (normalize (deleteProperty (JVal.obj fs) key).1) then []
         else (List.range regs.anyListeners.length).map fun i =>
           Event.anyChange i (normalize (deleteProperty (JVal.obj fs) key).1)
             (JVal.obj fs)))) ∧
    (hasProperty (JVal.obj fs) key = false →
      (deleteOp defaults wg true regs key s).result = false ∧
      (deleteOp defaults wg true regs key s).events = [] ∧
      (deleteOp defaults wg true regs key s).threw = false ∧
      (deleteOp defaults wg true regs key s).state = ⟨s.file, JVal.obj fs⟩) ∧
    (clearOp defaults wg true regs s).threw = false ∧
    (clearOp defaults wg true regs s).state =
      ⟨FileState.stored (JVal.obj []), JVal.obj []⟩ ∧
    (∀ w ls, (w, ls) ∈ regs.keyListeners →
      keyEventsFor (clearOp defaults wg true regs s).events w =
        (if isDeepStrictEqual (getProperty (JVal.obj fs) w)
            (getProperty (JVal.obj []) w) then []
         else (List.range ls.length).map fun i =>
           Event.keyChange w i (getProperty (JVal.obj []) w)
             (getProperty (JVal.obj fs) w))) ∧
    (anyEvents (clearOp defaults wg true regs s).events =
      (if isDeepStrictEqual (JVal.obj fs) (JVal.obj []) then []
       else (List.range regs.anyListeners.length).map fun i =>
         Event.anyChange i (JVal.obj []) (JVal.obj fs))) := by
  have hparse : readParse s.file = some (JVal.obj fs) := by rw [hfile]; rfl
  have hget : storeGetter defaults wg s = ⟨JVal.obj fs, ⟨s.file, JVal.obj fs⟩⟩ := by
    simp [storeGetter, hparse]
  have hold : normalize (JVal.obj fs) = JVal.obj fs := by
    show JVal.obj (normFields fs) = JVal.obj fs
    rw [hnf]
  have hupd : normalize (JVal.obj (JVal.assignKey fs key v)) =
      JVal.obj (JVal.assignKey fs key v) := by
    show JVal.obj (normFields (JVal.assignKey fs key v)) = _
    rw [normFields_assignKey fs key v hnf hv hnv]
  have hndu : ((JVal.assignKey fs key v).map Prod.fst).Nodup := nodup_assignKey fs key v hnd
  have hfresh : computeFresh (JVal.obj (JVal.assignKey fs key v))
      (FileState.stored (JVal.obj (JVal.assignKey fs key v))) =
      JVal.obj (JVal.assignKey fs key v) := by
    simp only [computeFresh, readParse, ownFields]
    rw [assignAll_absorb]
    intro p hp
    obtain ⟨k0, v0⟩ := p
    exact lookupF_of_nodup_mem _ k0 v0 hndu hp
  have hout : setKeyOp defaults wg true regs key v s =
      ⟨⟨FileState.stored (JVal.obj (JVal.assignKey fs key v)),
         JVal.obj (JVal.assignKey fs key v)⟩,
       (handlePossibleChange regs (JVal.obj fs) (JVal.obj (JVal.assignKey fs key v))
         (FileState.stored (JVal.obj (JVal.assignKey fs key v)))).events,
       (handlePossibleChange regs (JVal.obj fs) (JVal.obj (JVal.assignKey fs key v))
         (FileState.stored (JVal.obj (JVal.assignKey fs key v)))).threw,
       JVal.obj fs, JVal.obj (JVal.assignKey fs key v)⟩ := by
    have hkey' : ('.' : Char) ∉ key.data := by
      simpa using hkey
    simp [setKeyOp, hget, hold, hupd, hkey', ownFields]
  have hd := handle_no_throw regs (JVal.obj fs) (JVal.obj (JVal.assignKey fs key v))
    (FileState.stored (JVal.obj (JVal.assignKey fs key v))) hA hK
  rw [hfresh] at hd
  obtain ⟨g1, hg1, hu1, hn1⟩ := deleteProperty_obj_wf fs key hnf hnd
  have hfreshD : computeFresh (deleteProperty (JVal.obj fs) key).1
      (FileState.stored (normalize (deleteProperty (JVal.obj fs) key).1)) =
      normalize (deleteProperty (JVal.obj fs) key).1 := by
    rw [hg1]
    exact computeFresh_self_normalized g1 hu1 hn1
  have hdD := handle_no_throw regs (JVal.obj fs) (deleteProperty (JVal.obj fs) key).1
    (FileState.stored (normalize (deleteProperty (JVal.obj fs) key).1)) hA hK
  rw [hfreshD] at hdD
  have hnormE : normalize (JVal.obj []) = JVal.obj [] := rfl
  have houtC : clearOp defaults wg true regs s =
      ⟨⟨FileState.stored (JVal.obj []), JVal.obj []⟩,
       (handlePossibleChange regs (JVal.obj fs) (JVal.obj [])
         (FileState.stored (JVal.obj []))).events,
       (handlePossibleChange regs (JVal.obj fs) (JVal.obj [])
         (FileState.stored (JVal.obj []))).threw,
       [DeferredTask.clearVerify]⟩ := by
    simp [clearOp, hget, hold, storeSetter, hnormE]
  have hfreshC : computeFresh (JVal.obj []) (FileState.stored (JVal.obj [])) =
      JVal.obj [] := rfl
  have hdC := handle_no_throw regs (JVal.obj fs) (JVal.obj [])
    (FileState.stored (JVal.obj [])) hA hK
  rw [hfreshC] at hdC
  refine ⟨by rw [hout], by rw [hout], by rw [hout], ?_, ?_, ?_, ?_, ?_, ?_, ?_, ?_, ?_⟩
  · rw [hout]
    simp only [hd]
  · intro w ls hm
    rw [hout]
    simp only [hd, keyEventsFor_append]
    rw [keyEventsFor_kbind _ _ _ _ _ hkn hm]
    by_cases hdq : isDeepStrictEqual (JVal.obj fs) (JVal.obj (JVal.assignKey fs key v))
    · simp only [hdq, if_true]
      simp [keyEventsFor]
    · simp only [hdq, Bool.false_eq_true, if_false]
      rw [keyEventsFor_anyMap]
      simp
  · rw [hout]
    simp only [hd, anyEvents_append]
    rw [anyEvents_kbind]
    by_cases hdq : isDeepStrictEqual (JVal.obj fs) (JVal.obj (JVal.assignKey fs key v))
    · simp only [hdq, if_true]
      simp [anyEvents]
    · simp only [hdq, Bool.false_eq_true, if_false]
      rw [anyEvents_anyMap]
      simp
  · intro hP
    have houtD : deleteOp defaults wg true regs key s =
        ⟨true, ⟨FileState.stored (normalize (deleteProperty (JVal.obj fs) key).1),
                (deleteProperty (JVal.obj fs) key).1⟩,
         (handlePossibleChange regs (JVal.obj fs) (deleteProperty (JVal.obj fs) key).1
           (FileState.stored (normalize (deleteProperty (JVal.obj fs) key).1))).events,
         (handlePossibleChange regs (JVal.obj fs) (deleteProperty (JVal.obj fs) key).1
           (FileState.stored (normalize (deleteProperty (JVal.obj fs) key).1))).threw⟩ := by
      simp [deleteOp, hget, hold, hP, storeSetter]
    refine ⟨by rw [houtD], ?_, by rw [houtD], ?_, ?_⟩
    · rw [houtD]
      simp only [hdD]
    · intro w ls hm
      rw [houtD]
      simp only [hdD, keyEventsFor_append]
      rw [keyEventsFor_kbind _ _ _ _ _ hkn hm]
      by_cases hdq : isDeepStrictEqual (JVal.obj fs)
          (normalize (deleteProperty (JVal.obj fs) key).1)
      · simp only [hdq, if_true]
        simp [keyEventsFor]
      · simp only [hdq, Bool.false_eq_true, if_false]
        rw [keyEventsFor_anyMap]
        simp
    · rw [houtD]
      simp only [hdD, anyEvents_append]
      rw [anyEvents_kbind]
      by_cases hdq : isDeepStrictEqual (JVal.obj fs)
          (normalize (deleteProperty (JVal.obj fs) key).1)
      · simp only [hdq, if_true]
        simp [anyEvents]
      · simp only [hdq, Bool.false_eq_true, if_false]
        rw [anyEvents_anyMap]
        simp
  · intro hP
    have houtD0 : deleteOp defaults wg true regs key s =
        ⟨false, ⟨s.file, JVal.obj fs⟩, [], false⟩ := by
      simp [deleteOp, hget, hold, hP]
    exact ⟨by rw [houtD0], by rw [houtD0], by rw [houtD0], by rw [houtD0]⟩
  · rw [houtC]
    simp only [hdC]
  · rw [houtC]
  · intro w ls hm
    rw [houtC]
    simp only [hdC, keyEventsFor_append]
    rw [keyEventsFor_kbind _ _ _ _ _ hkn hm]
    by_cases hdq : isDeepStrictEqual (JVal.obj fs) (JVal.obj [])
    · simp only [hdq, if_true]
      simp [keyEventsFor]
    · simp only [hdq, Bool.false_eq_true, if_false]
      rw [keyEventsFor_anyMap]
      simp
  · rw [houtC]
    simp only [hdC, anyEvents_append]
    rw [anyEvents_kbind]
    by_cases hdq : isDeepStrictEqual (JVal.obj fs) (JVal.obj [])
    · simp only [hdq, if_true]
      simp [anyEvents]
    · simp only [hdq, Bool.false_eq_true, if_false]
      rw [anyEvents_anyMap]
      simp

/-- Witness for claim C4: the P4 scenario — with a listener on `"foo"` and
`"foo"` previously absent, `set("foo", "bar")` invokes the callback exactly
once with new value `"bar"` and old value `undefined`, and repeating the
same `set` invokes nothing — together with a `delete` and a `clear` of a
store holding `{a: 1}` watched at `"a"`, each invoking that callback
exactly once with new value `undefined` and old value `1`. -/
theorem claim_C4_notification_iff_witness :
    keyEventsFor (setKeyOp none true true ⟨[], [("foo", [⟨false⟩])]⟩ "foo" (JVal.str "bar")
        ⟨FileState.stored (JVal.obj []), JVal.obj []⟩).events "foo" =
      [Event.keyChange "foo" 0 (JVal.str "bar") JVal.undef] ∧
    (setKeyOp none true true ⟨[], [("foo", [⟨false⟩])]⟩ "foo" (JVal.str "bar")
        ⟨FileState.stored (JVal.obj []), JVal.obj []⟩).events =
      [Event.keyChange "foo" 0 (JVal.str "bar") JVal.undef] ∧
    (setKeyOp none true true ⟨[], [("foo", [⟨false⟩])]⟩ "foo" (JVal.str "bar")
      (setKeyOp none true true ⟨[], [("foo", [⟨false⟩])]⟩ "foo" (JVal.str "bar")
        ⟨FileState.stored (JVal.obj []), JVal.obj []⟩).state).events = [] ∧
    keyEventsFor (deleteOp none true true ⟨[], [("a", [⟨false⟩])]⟩ "a"
        ⟨FileState.stored (JVal.obj [("a", JVal.num 1)]),
         JVal.obj [("a", JVal.num 1)]⟩).events "a" =
      [Event.keyChange "a" 0 JVal.undef (JVal.num 1)] ∧
    keyEventsFor (clearOp none true true ⟨[], [("a", [⟨false⟩])]⟩
        ⟨FileState.stored (JVal.obj [("a", JVal.num 1)]),
         JVal.obj [("a", JVal.num 1)]⟩).events "a" =
      [Event.keyChange "a" 0 JVal.undef (JVal.num 1)] := by
  have h := claim_C4_notification_iff none true ⟨[], [("foo", [⟨false⟩])]⟩ "foo"
    (JVal.str "bar") [] ⟨FileState.stored (JVal.obj []), JVal.obj []⟩
    rfl rfl (by decide) (by decide) (by decide) (by decide)
    (by decide) (by decide) (by decide)
  have ha := claim_C4_notification_iff none true ⟨[], [("a", [⟨false⟩])]⟩ "a"
    JVal.null [("a", JVal.num 1)]
    ⟨FileState.stored (JVal.obj [("a", JVal.num 1)]), JVal.obj [("a", JVal.num 1)]⟩
    rfl rfl (by decide) (by decide) (by decide) (by decide)
    (by decide) (by decide) (by decide)
  refine ⟨?_, by decide, by decide, ?_, ?_⟩
  · have h5 := h.2.2.2.2.1 "foo" [⟨false⟩] (by decide)
    rw [h5]
    decide
  · have hdel := (ha.2.2.2.2.2.2.1 (by decide)).2.2.2.1 "a" [⟨false⟩] (by decide)
    rw [hdel]
    decide
  · have hclr := ha.2.2.2.2.2.2.2.2.2.2.1 "a" [⟨false⟩] (by decide)
    rw [hclr]
    decide
